import Mathlib

/-!
Verification of the Delilah Prime core (de-identification engine and
document processor) against its specification.

Texts are modelled as `List Char` (a faithful rendering of Python `str`
for the ASCII inputs this engine handles).  Each definition below is a
shallow embedding of one Python function from the repository source;
the file paths and line ranges are given in the doc comments.
-/

namespace Delilah

/-- Abbreviation: a text is a list of characters. -/
abbrev LC := List Char

/-! ## Basic string operations (Python built-ins used by the source) -/

/-- Python `needle in hay` substring test. -/
def containsSub (needle hay : LC) : Bool :=
  match hay with
  | [] => needle.isEmpty
  | _ :: t => needle.isPrefixOf hay || containsSub needle t

/-- Python `str.lower()` (ASCII). -/
def pyLower (s : LC) : LC := s.map Char.toLower

/-- Python `str.strip()`: drop leading and trailing whitespace. -/
def pyStrip (s : LC) : LC :=
  ((s.dropWhile Char.isWhitespace).reverse.dropWhile Char.isWhitespace).reverse

/-- Python `str.isupper()`: at least one cased character and every cased
character is upper case (ASCII model: cased = alphabetic). -/
def pyIsUpper (s : LC) : Bool :=
  s.any Char.isAlpha && s.all (fun c => !c.isAlpha || c.isUpper)

/-- Python `str.endswith(c)` for a single character. -/
def endsWithChar (s : LC) (c : Char) : Bool :=
  match s.getLast? with
  | some d => d == c
  | none => false

/-- Python `str.startswith(c)` for a single character. -/
def startsWithChar (s : LC) (c : Char) : Bool :=
  match s.head? with
  | some d => d == c
  | none => false

/-- Python `text.split('\n')`. -/
def splitLines : LC → List LC
  | [] => [[]]
  | c :: rest =>
    if c = '\n' then [] :: splitLines rest
    else
      match splitLines rest with
      | [] => [[c]]
      | s :: ss => (c :: s) :: ss

/-- Python `'\n'.join(lines)`. -/
def joinLines (ls : List LC) : LC := (List.intersperse ['\n'] ls).flatten

/-- Length of `'\n'.join(ls)`. -/
def joinLen (ls : List LC) : Nat := (joinLines ls).length

/-- Python `text[:s] + r + text[e:]` (replacement of the span `[s, e)`). -/
def splice (t : LC) (s e : Nat) (r : LC) : LC := t.take s ++ r ++ t.drop e

/-- Python `text[s:e]`. -/
def sl (t : LC) (s e : Nat) : LC := (t.take e).drop s

/-- Python `text.replace(p, o)`: replace every occurrence of `p` by `o`,
scanning left to right.  (For `p = ""` Python inserts `o` at every
position, which the second branch reproduces.) -/
def replaceAll (p o : LC) : LC → LC
  | [] => if p.isEmpty then o else []
  | c :: t =>
    if h : p ≠ [] ∧ p.isPrefixOf (c :: t) then
      o ++ replaceAll p o ((c :: t).drop p.length)
    else if p.isEmpty then
      o ++ c :: replaceAll p o t
    else
      c :: replaceAll p o t
termination_by t => t.length
decreasing_by
  all_goals simp only [List.length_drop, List.length_cons]
  · have hp : 1 ≤ p.length := by
      cases p with
      | nil => exact absurd rfl h.1
      | cons a l => simp
    omega
  · omega
  · omega

/-! ## Document processor: `split_into_chunks`
(src/src/processor/document_processor.py, lines 93-140) -/

/-- The overlap-seeding loop: walk the previous chunk's paragraphs from the
end (`for p in reversed(current_chunk)`), including a paragraph while
`overlap_size + len(p) <= chunk_overlap`, and `break` otherwise.  The input
list here is the previous chunk reversed; the result is
`(overlap_paragraphs, overlap_size)` with paragraphs in original order. -/
def ovAux (ovl : Nat) : List LC → Nat → List LC × Nat
  | [], sz => ([], sz)
  | p :: rest, sz =>
    if sz + p.length ≤ ovl then
      ((ovAux ovl rest (sz + p.length + 1)).1 ++ [p],
        (ovAux ovl rest (sz + p.length + 1)).2)
    else
      ([], sz)

/-- Main accumulation loop of `split_into_chunks`, over the paragraph list.
State: emitted chunks, `current_chunk`, `current_length`. -/
def chunksAux (maxSize ovl : Nat) : List LC → List (List LC) → List LC → Nat → List (List LC)
  | [], chunks, cur, _ => if cur.isEmpty then chunks else chunks ++ [cur]
  | p :: rest, chunks, cur, curLen =>
    if maxSize < curLen + p.length ∧ ¬ cur.isEmpty then
      let ov := ovAux ovl cur.reverse 0
      chunksAux maxSize ovl rest (chunks ++ [cur]) (ov.1 ++ [p]) (ov.2 + p.length + 1)
    else
      chunksAux maxSize ovl rest chunks (cur ++ [p]) (curLen + p.length + 1)

/-- Chunking at the level of paragraph lists: the loop of
`split_into_chunks` after `text.split('\n')`. -/
def splitIntoChunksL (maxSize ovl : Nat) (paras : List LC) : List (List LC) :=
  chunksAux maxSize ovl paras [] [] 0

/-- `DocumentProcessor.split_into_chunks(text)` with the instance's
configured `max_chunk_size` and `chunk_overlap` as parameters. -/
def splitIntoChunks (maxSize ovl : Nat) (text : LC) : List LC :=
  if text.length ≤ maxSize then [text]
  else (splitIntoChunksL maxSize ovl (splitLines text)).map joinLines

/-! ## Claim-side predicates for the chunker -/

/-- Claim C3 as stated: every chunk's length is at most `max_chunk_size`,
except a chunk that consists of a single line whose length alone exceeds
the limit. -/
def ClaimC3 (maxSize ovl : Nat) (text : LC) : Prop :=
  ∀ c ∈ splitIntoChunks maxSize ovl text,
    c.length ≤ maxSize ∨ (splitLines c).length = 1

/-- Bound satisfied by the `current_chunk` accumulator of
`split_into_chunks`: either the joined length is within `max_chunk_size`,
or the chunk is an overlap seed (joined length at most `chunk_overlap`)
followed by one further line. -/
def ChunkOK (maxSize ovl : Nat) (cl : List LC) : Prop :=
  joinLen cl ≤ maxSize ∨ ∃ ls lst, cl = ls ++ [lst] ∧ joinLen ls ≤ ovl

/-- Invariant tying `current_length` to `current_chunk` in
`split_into_chunks`. -/
def StateOK (maxSize ovl : Nat) (cur : List LC) (curLen : Nat) : Prop :=
  (cur = [] ∧ curLen = 0) ∨
    (cur ≠ [] ∧ curLen = joinLen cur + 1 ∧ ChunkOK maxSize ovl cur)

/-! ## Document processor: `_extract_section`
(src/src/processor/document_processor.py, lines 258-324) -/

/-- `any(keyword in line_lower for keyword in keywords)`. -/
def hasKeyword (kws : List LC) (l : LC) : Bool :=
  kws.any (fun k => containsSub k (pyLower l))

/-- The header-shape test applied to a candidate start line:
`len(line.strip()) < 100 and (line.strip().endswith(':') or
line.strip().startswith('#') or line.isupper())`. -/
def isHeaderShape (l : LC) : Bool :=
  decide ((pyStrip l).length < 100) &&
    (endsWithChar (pyStrip l) ':' || startsWithChar (pyStrip l) '#' || pyIsUpper l)

/-- Combined Pass A start condition: the line contains a section keyword
and looks like a header. -/
def isStartHeader (kws : List LC) (l : LC) : Bool :=
  hasKeyword kws l && isHeaderShape l

/-- The boundary test of Pass A, which the source applies to
`next_line = lines[j].lower()` — note that the whole test, including
`isupper()`, runs on the lowercased line. -/
def isBoundary (allKws : List LC) (l : LC) : Bool :=
  isHeaderShape (pyLower l) && allKws.any (fun k => containsSub k (pyLower l))

/-- First index at or after `k` whose line satisfies `p`
(the `for i, line in enumerate(lines)` scan with early return). -/
def firstIdxFrom (p : LC → Bool) : List LC → Nat → Option Nat
  | [], _ => none
  | l :: ls, k => if p l then some k else firstIdxFrom p ls (k + 1)

/-- End index of a Pass A section span: the first boundary line among
`range(i + 1, min(len(lines), i + 50))`, or `len(lines)` if none. -/
def boundaryIdx (allKws : List LC) (lines : List LC) (i : Nat) : Nat :=
  match (List.range' (i + 1) (min lines.length (i + 50) - (i + 1))).find?
      (fun j => isBoundary allKws (lines.getD j [])) with
  | some j => j
  | none => lines.length

/-- Number of keywords contained in the lowercased line:
`sum(1 for keyword in keywords if keyword in line_lower)`. -/
def countHits (kws : List LC) (l : LC) : Nat :=
  (kws.filter (fun k => containsSub k (pyLower l))).length

/-- Pass B context score of line `i`: keyword hits over
`range(max(0, i - 5), min(len(lines), i + 5))` excluding `i` itself. -/
def ctxScore (kws : List LC) (lines : List LC) (i : Nat) : Nat :=
  (((List.range' (i - 5) (min lines.length (i + 5) - (i - 5))).filter
      (fun j => j ≠ i)).map (fun j => countHits kws (lines.getD j []))).sum

/-- Pass B total score of line `i`:
`2 × (hits in the line) + (hits in the surrounding window)`. -/
def lineScore (kws : List LC) (lines : List LC) (i : Nat) : Nat :=
  2 * countHits kws (lines.getD i []) + ctxScore kws lines i

/-- The running `(best_score, best_match)` fold of Pass B, updating only
on strictly larger scores, starting from `(0, None)`. -/
def bestFoldN (score : Nat → Nat) (n : Nat) : Nat × Option Nat :=
  (List.range n).foldl
    (fun acc i => if acc.1 < score i then (score i, some i) else acc)
    (0, none)

/-- `DocumentProcessor._extract_section(content, keywords, context_lines)`.
`allKws` stands for `sum(self.section_keywords.values(), [])`, the
keyword lists of all configured sections flattened in order. -/
def extractSection (kws allKws : List LC) (ctx : Nat) (content : LC) : LC :=
  let lines := splitLines content
  match firstIdxFrom (fun l => isStartHeader kws l) lines 0 with
  | some i => joinLines ((lines.drop i).take (boundaryIdx allKws lines i - i))
  | none =>
    match bestFoldN (lineScore kws lines) lines.length with
    | (bs, some b) =>
      if 2 ≤ bs then
        joinLines ((lines.drop (b - 5)).take (min lines.length (b + ctx) - (b - 5)))
      else []
    | (_, none) => []

/-! ## Claim-side predicates for the section extractor -/

/-- Claim C5/C6 read the header-shape predicate as applying to the
original line (trimmed length under 100, ends with `:`, starts with a
markup marker, or is fully upper-case) and keyword containment
case-insensitively — this is the spec's version of a boundary line. -/
def claimBoundary (allKws : List LC) (l : LC) : Bool :=
  isHeaderShape l && hasKeyword allKws l

/-- Claim C6's context score for line `i`: keyword hits in the 5 lines
before and the 5 lines after (indices `i - 5` through `i + 5`, clipped,
excluding `i`). -/
def claimCtxScore (kws : List LC) (lines : List LC) (i : Nat) : Nat :=
  (((List.range' (i - 5) (min lines.length (i + 6) - (i - 5))).filter
      (fun j => j ≠ i)).map (fun j => countHits kws (lines.getD j []))).sum

/-- Claim C6's score formula. -/
def claimScore (kws : List LC) (lines : List LC) (i : Nat) : Nat :=
  2 * countHits kws (lines.getD i []) + claimCtxScore kws lines i

/-! ## Deidentifier (src/src/deidentifier/deidentifier.py) -/

/-- The `professional_terms` exclusion list (lines 79-89). -/
def professionalTerms : List LC := [
  "Occupational Therapist".toList, "OT Reg".toList,
  "Health Professional".toList, "Rehabilitation".toList,
  "Sebastien Ferland".toList, "Neusy Pierre".toList, "Assessment".toList,
  "Therapy".toList, "Evaluation".toList, "Clinical".toList,
  "Functional".toList, "Physical".toList, "Cognitive".toList,
  "Emotional".toList, "Psychological".toList,
  "Montreal Cognitive Assessment".toList,
  "Patient Health Questionnaire".toList, "AMA Guides".toList,
  "Activities of Daily Living".toList,
  "Functional Capacity Evaluation".toList,
  "Glasgow Outcome Scale".toList, "Extended".toList, "Report".toList,
  "Documentation".toList, "Mobility".toList, "Independence".toList,
  "Function".toList, "Adaptability".toList, "Concentration".toList,
  "Persistence".toList, "Pace".toList, "Deterioration".toList,
  "Decompensation".toList, "Work Settings".toList,
  "Social Functioning".toList, "Vocational".toList, "Capital".toList,
  "Associates".toList, "Specialists".toList, "Baseline Road".toList,
  "Ottawa".toList]

/-- `Deidentifier._is_professional_term` (lines 96-106):
`term.lower() in text.lower().strip()` for any configured term. -/
def isProfessionalTerm (t : LC) : Bool :=
  professionalTerms.any
    (fun term => containsSub (pyLower term) (pyStrip (pyLower t)))

/-- `Deidentifier._generate_placeholder` (lines 91-94):
`f"[{phi_type}_{placeholder_id}]"`, with the random 8-hex-character id
drawn from an injected stream. -/
def mkPh (ty id : LC) : LC := '[' :: ty ++ '_' :: id ++ [']']

/-- One regex match as reported by `re.finditer`: the span `[start, stop)`
into the text the pattern ran on. -/
structure PhMatch where
  start : Nat
  stop : Nat
deriving DecidableEq

/-- An abstract matcher: the list of non-overlapping matches (ascending)
that one compiled pattern's `finditer` reports on a text. -/
abbrev Matcher := LC → List PhMatch

/-- Deidentifier session state: current text, insertion-ordered reference
table, and the number of placeholders issued so far (the position in the
random-id stream). -/
structure DState where
  text : LC
  table : List (LC × LC)
  ctr : Nat
deriving DecidableEq

/-- Python dict assignment `reference_table[placeholder] = value`:
update in place when the key exists, append otherwise. -/
def tblInsert (tbl : List (LC × LC)) (k v : LC) : List (LC × LC) :=
  if (tbl.lookup k).isSome then
    tbl.map (fun kv => if kv.1 = k then (k, v) else kv)
  else tbl ++ [(k, v)]

/-- The body of `for match in reversed(matches)` (lines 130-144): the
matched text is `match.group(0)`, captured on the text `tp` the pattern
ran on; an excluded match is skipped (`continue`), any other match gets a
fresh placeholder, a reference-table entry, and is spliced out of the
current text at `match.span()`. -/
def processOne (gen : Nat → LC) (ty : LC) (tp : LC) (st : DState)
    (m : PhMatch) : DState :=
  if isProfessionalTerm (sl tp m.start m.stop) then st
  else
    { text := splice st.text m.start m.stop (mkPh ty (gen st.ctr)),
      table := tblInsert st.table (mkPh ty (gen st.ctr)) (sl tp m.start m.stop),
      ctr := st.ctr + 1 }

/-- Applying one pattern (lines 123-144): find all matches on the current
text, then process them in reversed order. -/
def applyPattern (gen : Nat → LC) (ty : LC) (mt : Matcher) (st : DState) :
    DState :=
  ((mt st.text).reverse).foldl (processOne gen ty st.text) st

/-- Applying one category: its patterns in declared order. -/
def applyCategory (gen : Nat → LC) (st : DState) (cat : LC × List Matcher) :
    DState :=
  cat.2.foldl (fun s mt => applyPattern gen cat.1 mt s) st

/-- `Deidentifier.deidentify_text` (lines 108-146) over an abstract
pattern registry `cats` (category name with its ordered matcher list, in
declared order) and id stream `gen`, starting from a fresh session. -/
def deidentifyText (cats : List (LC × List Matcher)) (gen : Nat → LC)
    (t0 : LC) : DState :=
  cats.foldl (applyCategory gen) { text := t0, table := [], ctr := 0 }

/-- `Deidentifier.reidentify_text` (lines 148-164): replace every
placeholder by its original, iterating the reference table in insertion
order. -/
def reidentifyText (st : DState) : LC :=
  st.table.foldl (fun acc kv => replaceAll kv.1 kv.2 acc) st.text

/-- Replacement loop shared by `reidentify_text`/`reidentify_content`. -/
def applyTable (tbl : List (LC × LC)) (s : LC) : LC :=
  tbl.foldl (fun acc kv => replaceAll kv.1 kv.2 acc) s

/-- Python values as seen by `reidentify_content`: a string, a dict whose
values may or may not be strings, or anything else. -/
inductive PyContent where
  | str (s : LC)
  | dict (kvs : List (LC × PyContent))
  | other

/-- `Deidentifier.reidentify_content(content, reference_table)`
(lines 206-241).  The table selection mirrors
`reference_table if reference_table else self.reference_table`: `None`
and the empty dict are both falsy, so both fall back to the session's own
table. -/
def reidentifyContent (selfTable : List (LC × LC)) (content : PyContent)
    (refTable : Option (List (LC × LC))) : PyContent :=
  match content with
  | .str s =>
    .str (applyTable
      (match refTable with
        | some t => if t.isEmpty then selfTable else t
        | none => selfTable) s)
  | .dict kvs =>
    .dict (kvs.map (fun kv =>
      match kv.2 with
      | .str v =>
        (kv.1, PyContent.str (applyTable
          (match refTable with
            | some t => if t.isEmpty then selfTable else t
            | none => selfTable) v))
      | _ => kv))
  | .other => .other

/-- A decoded JSON document as stored into `self.reference_table`: a
string-to-string object, or any other JSON value (array, string,
number, boolean, null) — `json.load` imposes no shape, and the
assignment on line 192 accepts whatever it returns. -/
inductive JsonVal where
  | obj (tbl : List (LC × LC))
  | other
deriving DecidableEq

/-- Outcome of `open(ref_table_file, 'r')` followed by `json.load(f)`
(lines 191-192): the file may be missing (`FileNotFoundError`), its
bytes may fail to decode as text (`UnicodeDecodeError`), its text may
fail to parse as JSON (`json.JSONDecodeError`), or it parses to some
JSON value, not necessarily an object. -/
inductive LoadOutcome where
  | missing
  | undecodable
  | malformed
  | parsed (v : JsonVal)
deriving DecidableEq

/-- What a call to `load_reference_table` leaves behind: a normal
return carrying the boolean result and the session table after the
call, or an exception propagating to the caller. -/
inductive LoadResult where
  | ret (b : Bool) (tbl : JsonVal)
  | raised
deriving DecidableEq

/-- `Deidentifier.load_reference_table` (lines 180-195).  The clause
`except (FileNotFoundError, json.JSONDecodeError)` catches exactly
those two exception types, returning `False` with the session table
unchanged; a `UnicodeDecodeError` from undecodable bytes matches
neither type (it subclasses `ValueError`, not `json.JSONDecodeError`)
and propagates out of the method; a value `json.load` returns is
assigned to the session table — object or not — and the call returns
`True`. -/
def loadReferenceTable (cur : List (LC × LC)) : LoadOutcome → LoadResult
  | .missing => .ret false (.obj cur)
  | .undecodable => .raised
  | .malformed => .ret false (.obj cur)
  | .parsed v => .ret true v

/-! ## Occurrence theory for placeholders

The hypotheses below record two facts about the source's pattern
registry, checked by inspection of every regular expression in
`self.patterns`: (1) no pattern element can consume `'['` or `']'`
(the character classes are `[A-Z]`, `[a-z]`, `\d`, `\s`, `[A-Z0-9-]`,
`[-.\s]` and fixed literals), and (2) every pattern forces at least one
space, colon, period or newline into its match (each alternative
requires either a literal label ending in `:` or a `\s`/`\.` element).
Placeholders `[TYPE_id]` contain none of those separator characters, so
no later pattern application can match inside one. -/

/-- Separator characters: every accepted match contains one, no
placeholder contains any. -/
def SEP : List Char := [' ', ':', '.', '\n']

/-- `occursAt p t i`: `p` occurs in `t` starting at position `i`. -/
def occursAt (p t : LC) (i : Nat) : Prop :=
  ∃ u v, t = u ++ p ++ v ∧ u.length = i

/-- A bracket token: `'['`, a bracket-free body, `']'`. -/
def BracketTok (q : LC) : Prop :=
  ∃ m, q = '[' :: m ++ [']'] ∧ '[' ∉ m ∧ ']' ∉ m

/-- A well-formed placeholder string: a bracket token containing no
separator characters. -/
def TokOK (p : LC) : Prop := BracketTok p ∧ ∀ c ∈ p, c ∉ SEP

/-- A well-formed stored original: bracket-free, with at least one
separator character. -/
def OrigOK (o : LC) : Prop := '[' ∉ o ∧ ']' ∉ o ∧ ∃ c ∈ o, c ∈ SEP

/-- A category name as declared in the registry (NAME, DATE, PHONE,
ID_NUMBER): bracket-free and separator-free. -/
def TyOK (ty : LC) : Prop := '[' ∉ ty ∧ ']' ∉ ty ∧ ∀ c ∈ ty, c ∉ SEP

/-- A generated id (8 hexadecimal characters from `uuid4`): bracket-free,
underscore-free and separator-free. -/
def IdOK (id : LC) : Prop :=
  '[' ∉ id ∧ ']' ∉ id ∧ '_' ∉ id ∧ ∀ c ∈ id, c ∉ SEP

/-- A well-behaved id stream: pairwise-distinct well-formed ids (the
spec's "collision with any existing placeholder is practically
impossible", promoted to a hypothesis). -/
def GenOK (gen : Nat → LC) : Prop :=
  (∀ j k, gen j = gen k → j = k) ∧ ∀ k, IdOK (gen k)

/-- What `re.finditer` guarantees for the registry's patterns: matches in
ascending order, pairwise disjoint, within bounds, nonempty; and the two
facts recorded above: matched text is bracket-free and contains a
separator character. -/
def MatchesOK (t : LC) (ms : List PhMatch) : Prop :=
  List.Chain' (fun a b => a.stop ≤ b.start) ms ∧
  ∀ m ∈ ms, m.start ≤ m.stop ∧ m.stop ≤ t.length ∧
    '[' ∉ sl t m.start m.stop ∧ ']' ∉ sl t m.start m.stop ∧
    ∃ c ∈ sl t m.start m.stop, c ∈ SEP

/-- A matcher whose output always satisfies `MatchesOK`. -/
def MatcherOK (mt : Matcher) : Prop := ∀ t, MatchesOK t (mt t)

/-- A well-formed pattern registry. -/
def CatsOK (cats : List (LC × List Matcher)) : Prop :=
  ∀ cat ∈ cats, TyOK cat.1 ∧ ∀ mt ∈ cat.2, MatcherOK mt

/-- Freshness of the id stream for a given input: no placeholder the
session could issue already occurs in the input text (the claim's
"no external modification of placeholder tokens"). -/
def FreshFor (cats : List (LC × List Matcher)) (gen : Nat → LC)
    (t0 : LC) : Prop :=
  ∀ cat ∈ cats, ∀ k, ¬ (mkPh cat.1 (gen k)) <:+: t0

/-! ## Segmented texts

A partially de-identified text, viewed as a leading literal followed by
(placeholder, original) tokens each trailed by a literal.  `render` is
the de-identified form, `restore` the original form. -/

/-- Segmented text. -/
structure SegText where
  head : LC
  rest : List ((LC × LC) × LC)

/-- Concatenate placeholder-then-literal segments. -/
def renderRest : List ((LC × LC) × LC) → LC
  | [] => []
  | e :: es => e.1.1 ++ e.2 ++ renderRest es

/-- Concatenate original-then-literal segments. -/
def restoreRest : List ((LC × LC) × LC) → LC
  | [] => []
  | e :: es => e.1.2 ++ e.2 ++ restoreRest es

/-- The de-identified text of a segmented text. -/
def render (sg : SegText) : LC := sg.head ++ renderRest sg.rest

/-- The original text of a segmented text. -/
def restore (sg : SegText) : LC := sg.head ++ restoreRest sg.rest

/-- The (placeholder, original) pairs, in positional order. -/
def toks (sg : SegText) : List (LC × LC) := sg.rest.map Prod.fst

/-- The literal pieces. -/
def lits (sg : SegText) : List LC := sg.head :: sg.rest.map Prod.snd

/-- Invariant carried through `deidentify_text`: the current text renders
a segmented text whose restoration is the original input, whose tokens
enumerate the reference table (up to order), with every token a
placeholder issued from the id stream, every stored original a
bracket-free separator-containing slice, every literal an infix of the
input, and no two tokens sharing a placeholder. -/
def SegInv (t0 : LC) (tys : List LC) (gen : Nat → LC) (st : DState)
    (sg : SegText) : Prop :=
  st.text = render sg ∧
  restore sg = t0 ∧
  st.table.Perm (toks sg) ∧
  st.table.length = st.ctr ∧
  (∀ e ∈ sg.rest, ∃ ty k, ty ∈ tys ∧ k < st.ctr ∧ e.1.1 = mkPh ty (gen k)) ∧
  (∀ e ∈ sg.rest, OrigOK e.1.2) ∧
  (∀ l ∈ lits sg, l <:+: t0) ∧
  ((toks sg).map Prod.fst).Nodup

/-- Invariant carried through `reidentify_text`. -/
def RSegOK (sg : SegText) : Prop :=
  (∀ e ∈ sg.rest, TokOK e.1.1) ∧
  (∀ e ∈ sg.rest, OrigOK e.1.2) ∧
  ((toks sg).map Prod.fst).Nodup ∧
  (∀ e ∈ sg.rest, ∀ l ∈ lits sg, ¬ e.1.1 <:+: l)

/-! ## Concrete instantiations used by the witnesses -/

/-- A concrete id stream: `idGenW k` is `k + 1` copies of `'a'`
(injective, bracket- and separator-free). -/
def idGenW (k : Nat) : LC := List.replicate (k + 1) 'a'

/-- A concrete matcher reporting one match (the span `"Name: Bob"`) on
one specific text and nothing elsewhere. -/
def matcherW : Matcher := fun t =>
  if t = "Name: Bob was here".toList then [⟨0, 9⟩] else []

/-- The registry for the witnesses: one NAME pattern. -/
def catsW : List (LC × List Matcher) := [("NAME".toList, [matcherW])]

/-- A matcher producing two single-character matches on any two-character
text, used by the collision counterexample. -/
def matcherC4 : Matcher := fun t =>
  if t.length = 2 then [⟨0, 1⟩, ⟨1, 2⟩] else []

/-- Remove from a matcher's output every match whose text (relative to
the text the matcher ran on) contains an exclusion-list phrase. -/
def dropExcluded (mt : Matcher) : Matcher := fun t =>
  (mt t).filter (fun m => !isProfessionalTerm (sl t m.start m.stop))

/-- `dropExcluded` applied to every pattern of a registry. -/
def dropExcludedCats (cats : List (LC × List Matcher)) :
    List (LC × List Matcher) :=
  cats.map (fun cat => (cat.1, cat.2.map dropExcluded))

end Delilah

namespace Delilah

/-! ## Lemmas: joining and splitting lines -/

theorem joinLines_nil : joinLines [] = [] := rfl

theorem joinLines_single (a : LC) : joinLines [a] = a := by
  simp [joinLines]

theorem joinLines_cons (a : LC) (ls : List LC) (h : ls ≠ []) :
    joinLines (a :: ls) = a ++ '\n' :: joinLines ls := by
  cases ls with
  | nil => exact absurd rfl h
  | cons b t => simp [joinLines, List.intersperse]

theorem splitLines_ne_nil (t : LC) : splitLines t ≠ [] := by
  induction t with
  | nil => simp [splitLines]
  | cons c rest ih =>
    simp only [splitLines]
    split
    · simp
    · cases h : splitLines rest with
      | nil => simp
      | cons s ss => simp

theorem joinLines_splitLines (t : LC) : joinLines (splitLines t) = t := by
  induction t with
  | nil => simp [splitLines, joinLines]
  | cons c rest ih =>
    simp only [splitLines]
    split
    · rename_i hc
      rw [joinLines_cons _ _ (splitLines_ne_nil rest), ih, hc]
      rfl
    · cases h : splitLines rest with
      | nil => exact absurd h (splitLines_ne_nil rest)
      | cons s ss =>
        rw [h] at ih
        cases ss with
        | nil =>
          rw [joinLines_single] at ih
          simp [joinLines_single, ih]
        | cons s2 ss2 =>
          rw [joinLines_cons _ _ (by simp)] at ih
          rw [joinLines_cons _ _ (by simp), ← ih]
          simp

theorem joinLines_concat (ls : List LC) (p : LC) :
    joinLines (ls ++ [p]) =
      if ls = [] then p else joinLines ls ++ '\n' :: p := by
  induction ls with
  | nil => simp [joinLines_single]
  | cons a t ih =>
    have ht : (t ++ [p] : List LC) ≠ [] := by simp
    rw [List.cons_append, joinLines_cons _ _ ht, ih,
      if_neg (List.cons_ne_nil a t)]
    cases t with
    | nil => simp [joinLines_single]
    | cons b t2 =>
      rw [if_neg (by simp), joinLines_cons a (b :: t2) (by simp)]
      simp

theorem joinLen_concat (ls : List LC) (p : LC) :
    joinLen (ls ++ [p]) =
      if ls = [] then p.length else joinLen ls + 1 + p.length := by
  unfold joinLen
  rw [joinLines_concat]
  split <;> simp [Nat.add_comm, Nat.add_assoc, Nat.add_left_comm]

theorem joinLen_nil : joinLen [] = 0 := rfl

theorem joinLen_single (p : LC) : joinLen [p] = p.length := by
  unfold joinLen
  rw [joinLines_single]

/-! ## Lemmas: the overlap-seeding loop -/

theorem ovAux_size_le (ovl : Nat) :
    ∀ rev sz, (ovAux ovl rev sz).2 ≤ max sz (ovl + 1) := by
  intro rev
  induction rev with
  | nil => intro sz; simp [ovAux]
  | cons p rest ih =>
    intro sz
    simp only [ovAux]
    split
    · rename_i hle
      have := ih (sz + p.length + 1)
      simp only at this ⊢
      omega
    · simp

theorem ovAux_join (ovl : Nat) :
    ∀ rev sz, ((ovAux ovl rev sz).1 = [] ∧ (ovAux ovl rev sz).2 = sz) ∨
      ((ovAux ovl rev sz).1 ≠ [] ∧
        (ovAux ovl rev sz).2 = sz + joinLen (ovAux ovl rev sz).1 + 1) := by
  intro rev
  induction rev with
  | nil => intro sz; left; simp [ovAux]
  | cons p rest ih =>
    intro sz
    simp only [ovAux]
    split
    · right
      refine ⟨by simp, ?_⟩
      rw [joinLen_concat]
      rcases ih (sz + p.length + 1) with ⟨h1, h2⟩ | ⟨h1, h2⟩
      · rw [if_pos h1]
        omega
      · rw [if_neg h1]
        omega
    · left; simp

theorem ovAux_overlap_le (ovl : Nat) (rev : List LC) :
    joinLen (ovAux ovl rev 0).1 ≤ ovl := by
  rcases ovAux_join ovl rev 0 with ⟨h1, _⟩ | ⟨_, h2⟩
  · rw [h1]; simp [joinLen, joinLines_nil]
  · have := ovAux_size_le ovl rev 0
    omega

theorem ovAux_isSuffix (ovl : Nat) :
    ∀ rev sz, ∃ w, rev = (ovAux ovl rev sz).1.reverse ++ w := by
  intro rev
  induction rev with
  | nil => intro sz; exact ⟨[], by simp [ovAux]⟩
  | cons p rest ih =>
    intro sz
    simp only [ovAux]
    split
    · obtain ⟨w, hw⟩ := ih (sz + p.length + 1)
      refine ⟨w, ?_⟩
      rw [List.reverse_append, List.reverse_singleton, List.append_assoc,
        List.singleton_append, ← hw]
    · exact ⟨p :: rest, by simp⟩

/-! ## Chunk-bound invariant (claim C3) -/

theorem chunksAux_chunkOK (maxSize ovl : Nat) :
    ∀ paras chunks cur curLen,
      (∀ cl ∈ chunks, ChunkOK maxSize ovl cl) →
      StateOK maxSize ovl cur curLen →
      ∀ cl ∈ chunksAux maxSize ovl paras chunks cur curLen,
        ChunkOK maxSize ovl cl := by
  intro paras
  induction paras with
  | nil =>
    intro chunks cur curLen hch hst cl hcl
    simp only [chunksAux] at hcl
    split at hcl
    · exact hch cl hcl
    · rename_i hne
      rcases List.mem_append.mp hcl with h | h
      · exact hch cl h
      · rcases hst with ⟨he, _⟩ | ⟨_, _, hok⟩
        · rw [he] at hne
          simp at hne
        · rw [List.mem_singleton.mp h]
          exact hok
  | cons p rest ih =>
    intro chunks cur curLen hch hst cl hcl
    simp only [chunksAux] at hcl
    split at hcl
    · rename_i hcond
      refine ih _ _ _ ?_ ?_ cl hcl
      · intro c hc
        rcases List.mem_append.mp hc with h | h
        · exact hch c h
        · rcases hst with ⟨he, _⟩ | ⟨_, _, hok⟩
          · rw [he] at hcond
            simp at hcond
          · rw [List.mem_singleton.mp h]
            exact hok
      · right
        refine ⟨by simp, ?_, ?_⟩
        · rw [joinLen_concat]
          rcases ovAux_join ovl cur.reverse 0 with ⟨h1, h2⟩ | ⟨h1, h2⟩
          · rw [if_pos h1]
            omega
          · rw [if_neg h1]
            omega
        · right
          exact ⟨_, _, rfl, ovAux_overlap_le ovl cur.reverse⟩
    · rename_i hcond
      refine ih _ _ _ hch ?_ cl hcl
      rcases hst with ⟨he, hlen⟩ | ⟨hne, hlen, hok⟩
      · right
        refine ⟨by simp [he], ?_, ?_⟩
        · rw [he, hlen]
          simp [joinLen_single]
        · right
          exact ⟨[], p, by simp [he], by simp [joinLen, joinLines_nil]⟩
      · have hle : curLen + p.length ≤ maxSize := by
          by_cases hgt : maxSize < curLen + p.length
          · exact absurd ⟨hgt, by simpa using hne⟩ hcond
          · omega
        right
        refine ⟨by simp, ?_, ?_⟩
        · rw [joinLen_concat, if_neg hne]
          omega
        · left
          rw [joinLen_concat, if_neg hne]
          omega

/-- Claim C3 (amended): every chunk produced by `split_into_chunks` has
length at most `max_chunk_size`, or it consists of an overlap seed of
joined length at most `chunk_overlap` followed by one final line, so its
length is at most `chunk_overlap + 1 +` the length of that final line. -/
theorem C3_chunk_bound_amended (maxSize ovl : Nat) (text : LC) :
    ∀ c ∈ splitIntoChunks maxSize ovl text,
      c.length ≤ maxSize ∨
        ∃ ls lst, c = joinLines (ls ++ [lst]) ∧ joinLen ls ≤ ovl ∧
          c.length ≤ ovl + 1 + lst.length := by
  intro c hc
  unfold splitIntoChunks at hc
  split at hc
  · rename_i hle
    rw [List.mem_singleton.mp hc]
    exact Or.inl hle
  · obtain ⟨cl, hcl, hj⟩ := List.mem_map.mp hc
    have hok : ChunkOK maxSize ovl cl := by
      refine chunksAux_chunkOK maxSize ovl _ [] [] 0 (by simp) ?_ cl hcl
      exact Or.inl ⟨rfl, rfl⟩
    rcases hok with h | ⟨ls, lst, hsplit, hov⟩
    · left
      rw [← hj]
      exact h
    · right
      refine ⟨ls, lst, by rw [← hj, hsplit], hov, ?_⟩
      rw [← hj, hsplit]
      have hc := joinLen_concat ls lst
      unfold joinLen at hc hov
      rw [hc]
      split
      · omega
      · omega

/-- Witness for `C3_chunk_bound_amended` at a concrete input: the second
chunk of splitting `"aaaa\nbbbb\ncccccccccccc"` with limit 10 and
overlap 5. -/
theorem C3_chunk_bound_amended_witness :
    ("bbbb\ncccccccccccc".toList ∈
        splitIntoChunks 10 5 "aaaa\nbbbb\ncccccccccccc".toList) ∧
      ("bbbb\ncccccccccccc".toList.length ≤ 10 ∨
        ∃ ls lst, "bbbb\ncccccccccccc".toList = joinLines (ls ++ [lst]) ∧
          joinLen ls ≤ 5 ∧
          "bbbb\ncccccccccccc".toList.length ≤ 5 + 1 + lst.length) :=
  ⟨by decide,
    C3_chunk_bound_amended 10 5 "aaaa\nbbbb\ncccccccccccc".toList
      "bbbb\ncccccccccccc".toList (by decide)⟩

/-- Claim C3 as stated is false: with `max_chunk_size = 10` and
`chunk_overlap = 5`, the input `"aaaa\nbbbb\ncccccccccccc"` produces the
chunk `"bbbb\ncccccccccccc"` of length 17, which exceeds the limit but
consists of two lines, not one. -/
theorem C3_counterexample :
    ¬ ClaimC3 10 5 "aaaa\nbbbb\ncccccccccccc".toList := by
  unfold ClaimC3
  decide

/-! ## Overlap/fresh decomposition of the chunk stream (claim C10) -/

theorem zip_trunc {α β : Type} :
    ∀ (L : List α) (A B : List β), L.length ≤ A.length →
      L.zip (A ++ B) = L.zip A := by
  intro L
  induction L with
  | nil => simp
  | cons x L ih =>
    intro A B h
    cases A with
    | nil => simp at h
    | cons a A2 =>
      simp only [List.cons_append, List.zip_cons_cons]
      rw [ih A2 B (by simpa using h)]

theorem chunksAux_decomp (maxSize ovl : Nat) :
    ∀ rem chunks cur curLen (os fs : List (List LC)) ocur fcur,
      chunks = List.zipWith (· ++ ·) os fs →
      os.length = fs.length →
      (os ++ [ocur]).head? = some [] →
      (∀ pr ∈ ((os ++ [ocur]).tail).zip chunks, pr.1 <:+ pr.2) →
      (∀ f ∈ fs, f ≠ []) →
      (cur ≠ [] → fcur ≠ []) →
      cur = ocur ++ fcur →
      (rem ≠ [] ∨ cur ≠ []) →
      ∃ os' fs' : List (List LC),
        chunksAux maxSize ovl rem chunks cur curLen =
          List.zipWith (· ++ ·) os' fs' ∧
        os'.length = fs'.length ∧
        os'.head? = some [] ∧
        (∀ pr ∈ (os'.tail).zip (List.zipWith (· ++ ·) os' fs'), pr.1 <:+ pr.2) ∧
        (∀ f ∈ fs', f ≠ []) ∧
        fs'.flatten = fs.flatten ++ fcur ++ rem := by
  intro rem
  induction rem with
  | nil =>
    intro chunks cur curLen os fs ocur fcur hze hlen hhd hzip hfs hfc hcur hne
    have hcurne : cur ≠ [] := by
      rcases hne with h | h
      · exact absurd rfl h
      · exact h
    refine ⟨os ++ [ocur], fs ++ [fcur], ?_, by simp [hlen], ?_, ?_, ?_, ?_⟩
    · simp only [chunksAux]
      rw [if_neg (by simpa using hcurne)]
      rw [List.zipWith_append _ _ _ _ _ hlen, ← hze, hcur]
      rfl
    · exact hhd
    · intro pr hpr
      apply hzip
      have hl : ((os ++ [ocur]).tail).length ≤ chunks.length := by
        simp [hze, hlen]
      rw [← zip_trunc _ chunks [cur] hl]
      have : chunks ++ [cur] =
          List.zipWith (· ++ ·) (os ++ [ocur]) (fs ++ [fcur]) := by
        rw [List.zipWith_append _ _ _ _ _ hlen, ← hze, hcur]
        rfl
      rw [← this] at hpr
      exact hpr
    · intro f hf
      rcases List.mem_append.mp hf with h | h
      · exact hfs f h
      · rw [List.mem_singleton.mp h]
        exact hfc hcurne
    · simp
  | cons p rest ih =>
    intro chunks cur curLen os fs ocur fcur hze hlen hhd hzip hfs hfc hcur hne
    simp only [chunksAux]
    split
    · rename_i hcond
      have hcurne : cur ≠ [] := by simpa using hcond.2
      obtain ⟨w, hw⟩ := ovAux_isSuffix ovl cur.reverse 0
      have hsuf : (ovAux ovl cur.reverse 0).1 <:+ cur := by
        refine ⟨w.reverse, ?_⟩
        have := congrArg List.reverse hw
        simpa using this.symm
      have hzip2 : ∀ pr ∈ (((os ++ [ocur]) ++ [(ovAux ovl cur.reverse 0).1]).tail).zip
          (chunks ++ [cur]), pr.1 <:+ pr.2 := by
        intro pr hpr
        rw [List.tail_append_singleton_of_ne_nil (by simp)] at hpr
        have hlt : ((os ++ [ocur]).tail).length = chunks.length := by
          simp [hze, hlen]
        rw [List.zip_append hlt] at hpr
        rcases List.mem_append.mp hpr with h | h
        · exact hzip pr h
        · rw [List.mem_singleton.mp h]
          exact hsuf
      have hfs2 : ∀ f ∈ fs ++ [fcur], f ≠ [] := by
        intro f hf
        rcases List.mem_append.mp hf with h | h
        · exact hfs f h
        · rw [List.mem_singleton.mp h]
          exact hfc hcurne
      obtain ⟨os', fs', h1, h2, h3, h4, h5, h6⟩ :=
        ih (chunks ++ [cur]) ((ovAux ovl cur.reverse 0).1 ++ [p]) _
          (os ++ [ocur]) (fs ++ [fcur]) (ovAux ovl cur.reverse 0).1 [p]
          (by rw [List.zipWith_append _ _ _ _ _ hlen, ← hze, hcur]; rfl)
          (by simp [hlen])
          (by rw [List.head?_append_of_ne_nil _ (by simp)]; exact hhd)
          hzip2 hfs2 (by simp) rfl (by simp)
      refine ⟨os', fs', h1, h2, h3, h4, h5, ?_⟩
      rw [h6]
      simp
    · rename_i hcond
      obtain ⟨os', fs', h1, h2, h3, h4, h5, h6⟩ :=
        ih chunks (cur ++ [p]) _ os fs ocur (fcur ++ [p])
          hze hlen hhd hzip hfs (by simp) (by rw [hcur, List.append_assoc])
          (Or.inr (by simp))
      exact ⟨os', fs', h1, h2, h3, h4, h5, by rw [h6]; simp⟩

/-- Claim C10: `split_into_chunks` loses no input text.  For a text longer
than `max_chunk_size`, each chunk (at the line level) is an overlap part
followed by a fresh part: the first chunk's overlap part is empty, every
later chunk's overlap part is a suffix of the previous chunk's line list,
every fresh part is nonempty, and the concatenation of the fresh parts is
exactly the input's line list, whose rejoining is the input text. -/
theorem C10_no_loss (maxSize ovl : Nat) (text : LC)
    (hlong : maxSize < text.length) :
    ∃ os fs : List (List LC),
      splitIntoChunks maxSize ovl text =
        (List.zipWith (· ++ ·) os fs).map joinLines ∧
      os.length = fs.length ∧
      os.head? = some [] ∧
      (∀ pr ∈ (os.tail).zip (List.zipWith (· ++ ·) os fs), pr.1 <:+ pr.2) ∧
      (∀ f ∈ fs, f ≠ []) ∧
      fs.flatten = splitLines text ∧
      joinLines fs.flatten = text := by
  obtain ⟨os, fs, h1, h2, h3, h4, h5, h6⟩ :=
    chunksAux_decomp maxSize ovl (splitLines text) [] [] 0 [] [] [] []
      rfl rfl rfl (by simp) (by simp) (by simp) rfl
      (Or.inl (splitLines_ne_nil text))
  have h6' : fs.flatten = splitLines text := by
    rw [h6]
    simp
  refine ⟨os, fs, ?_, h2, h3, h4, h5, h6', ?_⟩
  · unfold splitIntoChunks
    rw [if_neg (by omega)]
    unfold splitIntoChunksL
    rw [h1]
  · rw [h6']
    exact joinLines_splitLines text

/-! ## Section extractor: scan lemmas -/

theorem firstIdxFrom_eq_some_of (p : LC → Bool) :
    ∀ (ls : List LC) (i k : Nat), i < ls.length →
      p (ls.getD i []) = true → (∀ j, j < i → p (ls.getD j []) = false) →
      firstIdxFrom p ls k = some (k + i) := by
  intro ls
  induction ls with
  | nil => intro i k hi; simp at hi
  | cons l ls ih =>
    intro i k hi hp hprev
    cases i with
    | zero =>
      have hl : p l = true := by simpa using hp
      simp [firstIdxFrom, hl]
    | succ i2 =>
      have h0 : p l = false := by simpa using hprev 0 (Nat.succ_pos i2)
      have hrec := ih i2 (k + 1) (by simpa using hi) (by simpa using hp)
        (fun j hj => by simpa using hprev (j + 1) (by omega))
      simp only [firstIdxFrom, h0, Bool.false_eq_true, if_false, hrec]
      congr 1
      omega

theorem firstIdxFrom_eq_none_of (p : LC → Bool) :
    ∀ (ls : List LC) (k : Nat),
      (∀ j, j < ls.length → p (ls.getD j []) = false) →
      firstIdxFrom p ls k = none := by
  intro ls
  induction ls with
  | nil => intro k _; rfl
  | cons l ls ih =>
    intro k hall
    have h0 : p l = false := by simpa using hall 0 (by simp)
    simp only [firstIdxFrom, h0, Bool.false_eq_true, if_false]
    exact ih (k + 1) (fun j hj => by simpa using hall (j + 1) (by simpa using hj))

theorem find_range'_eq_some (P : Nat → Bool) :
    ∀ (n s j : Nat), s ≤ j → j < s + n → P j = true →
      (∀ m, s ≤ m → m < j → P m = false) →
      (List.range' s n).find? P = some j := by
  intro n
  induction n with
  | zero => intro s j h1 h2; omega
  | succ n ih =>
    intro s j h1 h2 hp hmin
    rw [List.range'_succ]
    by_cases hs : j = s
    · subst hs
      simp [List.find?_cons, hp]
    · have hPs : P s = false := hmin s (Nat.le_refl s) (by omega)
      simp only [List.find?_cons, hPs]
      exact ih (s + 1) j (by omega) (by omega) hp
        (fun m hm1 hm2 => hmin m (by omega) hm2)

theorem find_range'_eq_none (P : Nat → Bool) :
    ∀ (n s : Nat), (∀ m, s ≤ m → m < s + n → P m = false) →
      (List.range' s n).find? P = none := by
  intro n
  induction n with
  | zero => intro s _; rfl
  | succ n ih =>
    intro s hall
    rw [List.range'_succ]
    have hPs : P s = false := hall s (Nat.le_refl s) (by omega)
    simp only [List.find?_cons, hPs]
    exact ih (s + 1) (fun m hm1 hm2 => hall m (by omega) (by omega))

theorem bestFoldN_spec (score : Nat → Nat) :
    ∀ n, (bestFoldN score n = (0, none) ∧ ∀ j, j < n → score j = 0) ∨
      ∃ b, b < n ∧ 0 < score b ∧ bestFoldN score n = (score b, some b) ∧
        (∀ j, j < n → score j ≤ score b) ∧ (∀ j, j < b → score j < score b) := by
  intro n
  induction n with
  | zero => left; exact ⟨rfl, fun j hj => by omega⟩
  | succ n ih =>
    have hstep : bestFoldN score (n + 1) =
        (if (bestFoldN score n).1 < score n then (score n, some n)
          else bestFoldN score n) := by
      unfold bestFoldN
      rw [List.range_succ, List.foldl_append, List.foldl_cons, List.foldl_nil]
    rcases ih with ⟨heq, hz⟩ | ⟨b, hb, hpos, heq, hle, hlt⟩
    · rw [heq] at hstep
      by_cases hs : 0 < score n
      · right
        refine ⟨n, by omega, hs, by rw [hstep]; simp [hs], ?_, ?_⟩
        · intro j hj
          rcases Nat.lt_succ_iff_lt_or_eq.mp hj with h | h
          · rw [hz j h]; omega
          · subst h; omega
        · intro j hj
          rw [hz j hj]; omega
      · left
        refine ⟨by rw [hstep]; simp [hs], ?_⟩
        intro j hj
        rcases Nat.lt_succ_iff_lt_or_eq.mp hj with h | h
        · exact hz j h
        · subst h; omega
    · rw [heq] at hstep
      by_cases hs : score b < score n
      · right
        refine ⟨n, by omega, by omega, by rw [hstep]; simp [hs], ?_, ?_⟩
        · intro j hj
          rcases Nat.lt_succ_iff_lt_or_eq.mp hj with h | h
          · have := hle j h; omega
          · subst h; omega
        · intro j hj
          have := hle j (by omega); omega
      · right
        refine ⟨b, by omega, hpos, by rw [hstep]; simp [hs], ?_, hlt⟩
        intro j hj
        rcases Nat.lt_succ_iff_lt_or_eq.mp hj with h | h
        · exact hle j h
        · subst h; omega

/-! ## Claim C5: Pass A -/

/-- Claim C5 (amended): when Pass A fires, the span starts at the first
line satisfying the start condition and ends either at the first boundary
line among the following 49 lines — where the boundary test runs on the
lowercased line, so only lines ending in `:` or starting with `#` can
terminate the span, never a merely all-uppercase one — or at the end of
the text if that window holds no boundary line. -/
theorem C5_passA_amended (kws allKws : List LC) (ctx : Nat) (content : LC)
    (i : Nat) (hi : i < (splitLines content).length)
    (hstart : isStartHeader kws ((splitLines content).getD i []) = true)
    (hfirst : ∀ j, j < i →
      isStartHeader kws ((splitLines content).getD j []) = false) :
    ∃ e, i < e ∧ e ≤ (splitLines content).length ∧
      extractSection kws allKws ctx content =
        joinLines (((splitLines content).drop i).take (e - i)) ∧
      ((e < min (splitLines content).length (i + 50) ∧
          isBoundary allKws ((splitLines content).getD e []) = true ∧
          ∀ j, i < j → j < e →
            isBoundary allKws ((splitLines content).getD j []) = false) ∨
        (e = (splitLines content).length ∧
          ∀ j, i < j → j < min (splitLines content).length (i + 50) →
            isBoundary allKws ((splitLines content).getD j []) = false)) := by
  have hfind : firstIdxFrom (fun l => isStartHeader kws l)
      (splitLines content) 0 = some i := by
    have := firstIdxFrom_eq_some_of (fun l => isStartHeader kws l)
      (splitLines content) i 0 hi hstart hfirst
    simpa using this
  by_cases hex : ∃ j, i + 1 ≤ j ∧
      j < min (splitLines content).length (i + 50) ∧
      isBoundary allKws ((splitLines content).getD j []) = true
  · obtain ⟨hP1, hP2, hP3⟩ := Nat.find_spec hex
    have hmin : ∀ m, m < Nat.find hex →
        ¬(i + 1 ≤ m ∧ m < min (splitLines content).length (i + 50) ∧
          isBoundary allKws ((splitLines content).getD m []) = true) :=
      fun m hm => Nat.find_min hex hm
    have hfound : (List.range' (i + 1)
        (min (splitLines content).length (i + 50) - (i + 1))).find?
          (fun j => isBoundary allKws ((splitLines content).getD j [])) =
        some (Nat.find hex) := by
      apply find_range'_eq_some
      · exact hP1
      · omega
      · exact hP3
      · intro m hm1 hm2
        cases hbd : isBoundary allKws ((splitLines content).getD m []) with
        | true => exact ((hmin m hm2) ⟨hm1, by omega, hbd⟩).elim
        | false => rfl
    have hbdy : boundaryIdx allKws (splitLines content) i = Nat.find hex := by
      unfold boundaryIdx
      rw [hfound]
    refine ⟨Nat.find hex, by omega, by omega, ?_, Or.inl ⟨by omega, hP3, ?_⟩⟩
    · rw [← hbdy]
      simp only [extractSection]
      rw [hfind]
    · intro j hj1 hj2
      cases hbd : isBoundary allKws ((splitLines content).getD j []) with
      | true => exact ((hmin j hj2) ⟨by omega, by omega, hbd⟩).elim
      | false => rfl
  · have hnob : ∀ j, i < j → j < min (splitLines content).length (i + 50) →
        isBoundary allKws ((splitLines content).getD j []) = false := by
      intro j hj1 hj2
      cases hbd : isBoundary allKws ((splitLines content).getD j []) with
      | true => exact (hex ⟨j, by omega, hj2, hbd⟩).elim
      | false => rfl
    have hfound : (List.range' (i + 1)
        (min (splitLines content).length (i + 50) - (i + 1))).find?
          (fun j => isBoundary allKws ((splitLines content).getD j [])) =
        none := by
      apply find_range'_eq_none
      intro m hm1 hm2
      exact hnob m (by omega) (by omega)
    have hbdy : boundaryIdx allKws (splitLines content) i =
        (splitLines content).length := by
      unfold boundaryIdx
      rw [hfound]
    refine ⟨(splitLines content).length, by omega, by omega, ?_,
      Or.inr ⟨rfl, hnob⟩⟩
    rw [← hbdy]
    simp only [extractSection]
    rw [hfind]

end Delilah

namespace Delilah

/-- Witness for `C10_no_loss` at a concrete input. -/
theorem C10_no_loss_witness :
    ∃ os fs : List (List LC),
      splitIntoChunks 10 5 "aaaa\nbbbb\ncccccccccccc".toList =
        (List.zipWith (· ++ ·) os fs).map joinLines ∧
      os.length = fs.length ∧
      os.head? = some [] ∧
      (∀ pr ∈ (os.tail).zip (List.zipWith (· ++ ·) os fs), pr.1 <:+ pr.2) ∧
      (∀ f ∈ fs, f ≠ []) ∧
      fs.flatten = splitLines "aaaa\nbbbb\ncccccccccccc".toList ∧
      joinLines fs.flatten = "aaaa\nbbbb\ncccccccccccc".toList :=
  C10_no_loss 10 5 "aaaa\nbbbb\ncccccccccccc".toList (by decide)

end Delilah

namespace Delilah

/-- Witness for `C5_passA_amended` at a concrete input: header at line 0,
boundary `"FINDINGS:"` at line 2. -/
theorem C5_passA_amended_witness :
    ∃ e, 0 < e ∧
      e ≤ (splitLines "DIAGNOSIS:\nPatient has X\nFINDINGS:\nmore stuff".toList).length ∧
      extractSection ["diagnosis".toList] ["diagnosis".toList, "findings".toList] 15
          "DIAGNOSIS:\nPatient has X\nFINDINGS:\nmore stuff".toList =
        joinLines (((splitLines "DIAGNOSIS:\nPatient has X\nFINDINGS:\nmore stuff".toList).drop 0).take (e - 0)) ∧
      ((e < min (splitLines "DIAGNOSIS:\nPatient has X\nFINDINGS:\nmore stuff".toList).length (0 + 50) ∧
          isBoundary ["diagnosis".toList, "findings".toList]
            ((splitLines "DIAGNOSIS:\nPatient has X\nFINDINGS:\nmore stuff".toList).getD e []) = true ∧
          ∀ j, 0 < j → j < e →
            isBoundary ["diagnosis".toList, "findings".toList]
              ((splitLines "DIAGNOSIS:\nPatient has X\nFINDINGS:\nmore stuff".toList).getD j []) = false) ∨
        (e = (splitLines "DIAGNOSIS:\nPatient has X\nFINDINGS:\nmore stuff".toList).length ∧
          ∀ j, 0 < j → j < min (splitLines "DIAGNOSIS:\nPatient has X\nFINDINGS:\nmore stuff".toList).length (0 + 50) →
            isBoundary ["diagnosis".toList, "findings".toList]
              ((splitLines "DIAGNOSIS:\nPatient has X\nFINDINGS:\nmore stuff".toList).getD j []) = false)) :=
  C5_passA_amended ["diagnosis".toList] ["diagnosis".toList, "findings".toList] 15
    "DIAGNOSIS:\nPatient has X\nFINDINGS:\nmore stuff".toList 0
    (by decide) (by decide) (fun j hj => absurd hj (by omega))

/-- Claim C5 as stated is false: in
`"DIAGNOSIS:\nPatient has X\nFINDINGS HERE\nmore stuff"` with keywords
`["diagnosis"]` for the target section and `["diagnosis", "findings"]`
over all sections, line 2 `"FINDINGS HERE"` is header-shaped (short and
fully upper-case) and contains the configured keyword `"findings"`, so
the claim requires the returned span to end there (exclusive); the code
instead returns the whole text, because its boundary test lowercases the
line before checking `isupper()`. -/
theorem C5_counterexample :
    claimBoundary ["diagnosis".toList, "findings".toList]
        "FINDINGS HERE".toList = true ∧
    isStartHeader ["diagnosis".toList] "DIAGNOSIS:".toList = true ∧
    extractSection ["diagnosis".toList] ["diagnosis".toList, "findings".toList]
        15 "DIAGNOSIS:\nPatient has X\nFINDINGS HERE\nmore stuff".toList =
      "DIAGNOSIS:\nPatient has X\nFINDINGS HERE\nmore stuff".toList ∧
    extractSection ["diagnosis".toList] ["diagnosis".toList, "findings".toList]
        15 "DIAGNOSIS:\nPatient has X\nFINDINGS HERE\nmore stuff".toList ≠
      joinLines ["DIAGNOSIS:".toList, "Patient has X".toList] := by
  refine ⟨by decide, by decide, by decide, by decide⟩

/-! ## Claim C6: Pass B -/

/-- Claim C6 (amended): when Pass A finds nothing, each line is scored as
2 times its own keyword hits plus the hits over the window from 5 lines
before to 4 lines after (the source iterates `range(max(0, i - 5),
min(len(lines), i + 5))`, which excludes line `i + 5`); if some line
scores at least 2, the returned text is the slice from 5 lines before the
first maximum-scoring line to `context_lines` lines after it (exclusive
end `min(n, b + context_lines)`), otherwise the empty string. -/
theorem C6_passB_amended (kws allKws : List LC) (ctx : Nat) (content : LC)
    (hnone : ∀ j, j < (splitLines content).length →
      isStartHeader kws ((splitLines content).getD j []) = false) :
    (∃ b, b < (splitLines content).length ∧
        2 ≤ lineScore kws (splitLines content) b ∧
        (∀ j, j < (splitLines content).length →
          lineScore kws (splitLines content) j ≤
            lineScore kws (splitLines content) b) ∧
        (∀ j, j < b →
          lineScore kws (splitLines content) j <
            lineScore kws (splitLines content) b) ∧
        extractSection kws allKws ctx content =
          joinLines (((splitLines content).drop (b - 5)).take
            (min (splitLines content).length (b + ctx) - (b - 5)))) ∨
      ((∀ j, j < (splitLines content).length →
          lineScore kws (splitLines content) j < 2) ∧
        extractSection kws allKws ctx content = []) := by
  have hfind : firstIdxFrom (fun l => isStartHeader kws l)
      (splitLines content) 0 = none :=
    firstIdxFrom_eq_none_of _ _ 0 hnone
  rcases bestFoldN_spec (lineScore kws (splitLines content))
      (splitLines content).length with ⟨heq, hz⟩ | ⟨b, hb, hpos, heq, hle, hlt⟩
  · right
    constructor
    · intro j hj
      rw [hz j hj]
      omega
    · simp only [extractSection, hfind, heq]
  · by_cases h2 : 2 ≤ lineScore kws (splitLines content) b
    · left
      refine ⟨b, hb, h2, hle, hlt, ?_⟩
      simp only [extractSection, hfind, heq]
      rw [if_pos h2]
    · right
      refine ⟨?_, ?_⟩
      · intro j hj
        have := hle j hj
        omega
      · simp only [extractSection, hfind, heq]
        rw [if_neg h2]

end Delilah

namespace Delilah

/-- Claim C6 as stated is false.  In the 30-line input below (keyword
hits on lines 5, 10 and 15), Pass A finds nothing, and the claim's score
— context counting the 5 lines before *and the 5 lines after* —
attains its unique maximum 7 at line 10, so the claim requires the
returned window to start at line 5.  The source counts only 4 lines
after (`range(max(0, i - 5), min(n, i + 5))`), puts the maximum at
line 15, and returns the window starting at line 10: the result differs
from the claim's window under either reading of "to `context_lines`
lines after" (exclusive `[5, 25)` or inclusive `[5, 26)`). -/
theorem C6_counterexample :
    (∀ j, j < (splitLines ".\n.\n.\n.\n.\nk\n.\n.\n.\n.\nk q\n.\n.\n.\n.\nk q\n.\n.\n.\n.\n.\n.\n.\n.\n.\n.\n.\n.\n.\n.".toList).length →
      isStartHeader ["k".toList, "q".toList]
        ((splitLines ".\n.\n.\n.\n.\nk\n.\n.\n.\n.\nk q\n.\n.\n.\n.\nk q\n.\n.\n.\n.\n.\n.\n.\n.\n.\n.\n.\n.\n.\n.".toList).getD j []) = false) ∧
    claimScore ["k".toList, "q".toList]
      (splitLines ".\n.\n.\n.\n.\nk\n.\n.\n.\n.\nk q\n.\n.\n.\n.\nk q\n.\n.\n.\n.\n.\n.\n.\n.\n.\n.\n.\n.\n.\n.".toList) 10 = 7 ∧
    (∀ j, j < (splitLines ".\n.\n.\n.\n.\nk\n.\n.\n.\n.\nk q\n.\n.\n.\n.\nk q\n.\n.\n.\n.\n.\n.\n.\n.\n.\n.\n.\n.\n.\n.".toList).length → j ≠ 10 →
      claimScore ["k".toList, "q".toList]
        (splitLines ".\n.\n.\n.\n.\nk\n.\n.\n.\n.\nk q\n.\n.\n.\n.\nk q\n.\n.\n.\n.\n.\n.\n.\n.\n.\n.\n.\n.\n.\n.".toList) j < 7) ∧
    extractSection ["k".toList, "q".toList] [] 15 ".\n.\n.\n.\n.\nk\n.\n.\n.\n.\nk q\n.\n.\n.\n.\nk q\n.\n.\n.\n.\n.\n.\n.\n.\n.\n.\n.\n.\n.\n.".toList =
      joinLines (((splitLines ".\n.\n.\n.\n.\nk\n.\n.\n.\n.\nk q\n.\n.\n.\n.\nk q\n.\n.\n.\n.\n.\n.\n.\n.\n.\n.\n.\n.\n.\n.".toList).drop 10).take 20) ∧
    extractSection ["k".toList, "q".toList] [] 15 ".\n.\n.\n.\n.\nk\n.\n.\n.\n.\nk q\n.\n.\n.\n.\nk q\n.\n.\n.\n.\n.\n.\n.\n.\n.\n.\n.\n.\n.\n.".toList ≠
      joinLines (((splitLines ".\n.\n.\n.\n.\nk\n.\n.\n.\n.\nk q\n.\n.\n.\n.\nk q\n.\n.\n.\n.\n.\n.\n.\n.\n.\n.\n.\n.\n.\n.".toList).drop 5).take 20) ∧
    extractSection ["k".toList, "q".toList] [] 15 ".\n.\n.\n.\n.\nk\n.\n.\n.\n.\nk q\n.\n.\n.\n.\nk q\n.\n.\n.\n.\n.\n.\n.\n.\n.\n.\n.\n.\n.\n.".toList ≠
      joinLines (((splitLines ".\n.\n.\n.\n.\nk\n.\n.\n.\n.\nk q\n.\n.\n.\n.\nk q\n.\n.\n.\n.\n.\n.\n.\n.\n.\n.\n.\n.\n.\n.".toList).drop 5).take 21) := by
  refine ⟨by decide, by decide, by decide, by decide, by decide, by decide⟩

/-- Witness for `C6_passB_amended` at a concrete input (the same shape of
input as the counterexample, exercising the density fallback). -/
theorem C6_passB_amended_witness :
    (∃ b, b < (splitLines ".\n.\n.\n.\n.\nk\n.\n.\n.\n.\nk q\n.\n.\n.\n.\nk q\n.\n.\n.\n.\n.\n.\n.\n.\n.\n.\n.\n.\n.\n.".toList).length ∧
        2 ≤ lineScore ["k".toList, "q".toList]
          (splitLines ".\n.\n.\n.\n.\nk\n.\n.\n.\n.\nk q\n.\n.\n.\n.\nk q\n.\n.\n.\n.\n.\n.\n.\n.\n.\n.\n.\n.\n.\n.".toList) b ∧
        (∀ j, j < (splitLines ".\n.\n.\n.\n.\nk\n.\n.\n.\n.\nk q\n.\n.\n.\n.\nk q\n.\n.\n.\n.\n.\n.\n.\n.\n.\n.\n.\n.\n.\n.".toList).length →
          lineScore ["k".toList, "q".toList]
            (splitLines ".\n.\n.\n.\n.\nk\n.\n.\n.\n.\nk q\n.\n.\n.\n.\nk q\n.\n.\n.\n.\n.\n.\n.\n.\n.\n.\n.\n.\n.\n.".toList) j ≤
          lineScore ["k".toList, "q".toList]
            (splitLines ".\n.\n.\n.\n.\nk\n.\n.\n.\n.\nk q\n.\n.\n.\n.\nk q\n.\n.\n.\n.\n.\n.\n.\n.\n.\n.\n.\n.\n.\n.".toList) b) ∧
        (∀ j, j < b →
          lineScore ["k".toList, "q".toList]
            (splitLines ".\n.\n.\n.\n.\nk\n.\n.\n.\n.\nk q\n.\n.\n.\n.\nk q\n.\n.\n.\n.\n.\n.\n.\n.\n.\n.\n.\n.\n.\n.".toList) j <
          lineScore ["k".toList, "q".toList]
            (splitLines ".\n.\n.\n.\n.\nk\n.\n.\n.\n.\nk q\n.\n.\n.\n.\nk q\n.\n.\n.\n.\n.\n.\n.\n.\n.\n.\n.\n.\n.\n.".toList) b) ∧
        extractSection ["k".toList, "q".toList] [] 15 ".\n.\n.\n.\n.\nk\n.\n.\n.\n.\nk q\n.\n.\n.\n.\nk q\n.\n.\n.\n.\n.\n.\n.\n.\n.\n.\n.\n.\n.\n.".toList =
          joinLines (((splitLines ".\n.\n.\n.\n.\nk\n.\n.\n.\n.\nk q\n.\n.\n.\n.\nk q\n.\n.\n.\n.\n.\n.\n.\n.\n.\n.\n.\n.\n.\n.".toList).drop (b - 5)).take
            (min (splitLines ".\n.\n.\n.\n.\nk\n.\n.\n.\n.\nk q\n.\n.\n.\n.\nk q\n.\n.\n.\n.\n.\n.\n.\n.\n.\n.\n.\n.\n.\n.".toList).length (b + 15) - (b - 5)))) ∨
      ((∀ j, j < (splitLines ".\n.\n.\n.\n.\nk\n.\n.\n.\n.\nk q\n.\n.\n.\n.\nk q\n.\n.\n.\n.\n.\n.\n.\n.\n.\n.\n.\n.\n.\n.".toList).length →
          lineScore ["k".toList, "q".toList]
            (splitLines ".\n.\n.\n.\n.\nk\n.\n.\n.\n.\nk q\n.\n.\n.\n.\nk q\n.\n.\n.\n.\n.\n.\n.\n.\n.\n.\n.\n.\n.\n.".toList) j < 2) ∧
        extractSection ["k".toList, "q".toList] [] 15 ".\n.\n.\n.\n.\nk\n.\n.\n.\n.\nk q\n.\n.\n.\n.\nk q\n.\n.\n.\n.\n.\n.\n.\n.\n.\n.\n.\n.\n.\n.".toList = []) :=
  C6_passB_amended ["k".toList, "q".toList] [] 15
    ".\n.\n.\n.\n.\nk\n.\n.\n.\n.\nk q\n.\n.\n.\n.\nk q\n.\n.\n.\n.\n.\n.\n.\n.\n.\n.\n.\n.\n.\n.".toList
    (by decide)

end Delilah

namespace Delilah

/-! ## Claims C7, C8, C9, and the C4 counterexample -/

theorem processOne_excluded (gen : Nat → LC) (ty tp : LC) (st : DState)
    (m : PhMatch) (h : isProfessionalTerm (sl tp m.start m.stop) = true) :
    processOne gen ty tp st m = st := by
  simp [processOne, h]

theorem foldr_filter_excluded (gen : Nat → LC) (ty tp : LC) :
    ∀ (ms : List PhMatch) (st : DState),
      ((ms.filter (fun m => !isProfessionalTerm (sl tp m.start m.stop))).foldr
        (fun x y => processOne gen ty tp y x) st) =
      (ms.foldr (fun x y => processOne gen ty tp y x) st) := by
  intro ms
  induction ms with
  | nil => intro st; rfl
  | cons m rest ih =>
    intro st
    by_cases hm : isProfessionalTerm (sl tp m.start m.stop) = true
    · rw [List.filter_cons, if_neg (by simp [hm]), List.foldr_cons, ih,
        processOne_excluded gen ty tp _ m hm]
    · rw [List.filter_cons, if_pos (by simp [hm]), List.foldr_cons,
        List.foldr_cons, ih]

theorem applyPattern_dropExcluded (gen : Nat → LC) (ty : LC) (mt : Matcher)
    (st : DState) :
    applyPattern gen ty (dropExcluded mt) st = applyPattern gen ty mt st := by
  unfold applyPattern dropExcluded
  rw [List.foldl_reverse, List.foldl_reverse]
  exact foldr_filter_excluded gen ty st.text (mt st.text) st

theorem applyCategory_dropExcluded (gen : Nat → LC) (ty : LC) :
    ∀ (mts : List Matcher) (st : DState),
      (mts.map dropExcluded).foldl (fun s mt => applyPattern gen ty mt s) st =
        mts.foldl (fun s mt => applyPattern gen ty mt s) st := by
  intro mts
  induction mts with
  | nil => intro st; rfl
  | cons mt rest ih =>
    intro st
    rw [List.map_cons, List.foldl_cons, List.foldl_cons,
      applyPattern_dropExcluded, ih]

/-- Claim C7: a match whose text contains (case-insensitively) a phrase
from the exclusion list contributes nothing to de-identification — the
run with all such matches removed from every pattern's output is
identical: same output text, same reference table, same id consumption.
In particular an excluded match is left unchanged by its own processing
step, gets no placeholder, and adds no reference-table entry. -/
theorem C7_exclusion_skip (cats : List (LC × List Matcher))
    (gen : Nat → LC) (t0 : LC) :
    deidentifyText (dropExcludedCats cats) gen t0 =
      deidentifyText cats gen t0 := by
  unfold deidentifyText dropExcludedCats
  generalize ({ text := t0, table := [], ctr := 0 } : DState) = st
  induction cats generalizing st with
  | nil => rfl
  | cons cat rest ih =>
    rw [List.map_cons, List.foldl_cons, List.foldl_cons]
    have hcat : applyCategory gen st (cat.1, cat.2.map dropExcluded) =
        applyCategory gen st cat := by
      unfold applyCategory
      exact applyCategory_dropExcluded gen cat.1 cat.2 st
    rw [hcat, ih]

/-- Claim C8 as stated is false on the code: a malformed store whose
bytes do not decode as text makes `json.load` raise
`UnicodeDecodeError`, which the clause
`except (FileNotFoundError, json.JSONDecodeError)` does not catch, so
`load_reference_table` raises a fatal error on that malformed store
instead of returning `False`. -/
theorem C8_counterexample :
    loadReferenceTable [] LoadOutcome.undecodable = LoadResult.raised ∧
    loadReferenceTable [] LoadOutcome.undecodable ≠
      LoadResult.ret false (JsonVal.obj []) := by
  decide

/-- Claim C8 (amended): the load returns `False` with the session table
unchanged exactly when the store is missing or its text fails to parse
as JSON, and returns `True` with the parsed value installed — even a
non-object — on any successful parse; but it is not total on malformed
stores: a store whose bytes do not decode as text raises an uncaught
error. -/
theorem C8_load_recoverable_amended (cur : List (LC × LC))
    (o : LoadOutcome) :
    (loadReferenceTable cur o = LoadResult.ret false (JsonVal.obj cur) ↔
      (o = LoadOutcome.missing ∨ o = LoadOutcome.malformed)) ∧
    ((∃ v, loadReferenceTable cur o = LoadResult.ret true v ∧
        o = LoadOutcome.parsed v) ↔ ∃ v, o = LoadOutcome.parsed v) ∧
    (loadReferenceTable cur o = LoadResult.raised ↔
      o = LoadOutcome.undecodable) := by
  cases o with
  | missing => simp [loadReferenceTable]
  | undecodable => simp [loadReferenceTable]
  | malformed => simp [loadReferenceTable]
  | parsed v => simp [loadReferenceTable]

/-- Claim C9: passing an explicitly empty reference table to
`reidentify_content` does not mean "no substitutions": the empty dict is
falsy, so the call falls back to the instance's own table and returns the
same result as passing no table at all — namely the session table's
replacements applied to the content. -/
theorem C9_empty_table_falls_back (selfTable : List (LC × LC)) (s : LC) :
    reidentifyContent selfTable (PyContent.str s) (some []) =
      reidentifyContent selfTable (PyContent.str s) none ∧
    reidentifyContent selfTable (PyContent.str s) (some []) =
      PyContent.str (applyTable selfTable s) :=
  ⟨rfl, rfl⟩

/-- Claim C4 as stated is false on the code: `_generate_placeholder`
draws 8 random characters with no non-collision check.  Modelling a run
in which the random stream repeats the id `"a"` (a possible, if
astronomically unlikely, `uuid4` outcome), the session substitutes two
distinct spans of `"xx"` — issuing a placeholder twice (`ctr = 2`) —
yet both spans receive the same placeholder `[NAME_a]` and the reference
table ends with a single entry: the first entry was overwritten. -/
theorem C4_counterexample :
    (deidentifyText [("NAME".toList, [matcherC4])] (fun _ => ['a'])
      "xx".toList).ctr = 2 ∧
    (deidentifyText [("NAME".toList, [matcherC4])] (fun _ => ['a'])
      "xx".toList).table = [("[NAME_a]".toList, "x".toList)] ∧
    (deidentifyText [("NAME".toList, [matcherC4])] (fun _ => ['a'])
      "xx".toList).text = "[NAME_a][NAME_a]".toList := by
  refine ⟨by decide, by decide, by decide⟩

end Delilah

namespace Delilah

/-! ## Occurrence and slicing lemmas -/

theorem infix_iff_occursAt {p t : LC} : p <:+: t ↔ ∃ i, occursAt p t i := by
  constructor
  · rintro ⟨u, v, huv⟩
    exact ⟨u.length, u, v, huv.symm, rfl⟩
  · rintro ⟨i, u, v, ht, _⟩
    exact ⟨u, v, ht.symm⟩

theorem occursAt_length {p t : LC} {i : Nat} (h : occursAt p t i) :
    i + p.length ≤ t.length := by
  obtain ⟨u, v, ht, hu⟩ := h
  subst ht
  simp only [List.length_append]
  omega

theorem take_sl_drop {t : LC} {s e : Nat} (h1 : s ≤ e) (h2 : e ≤ t.length) :
    t = t.take s ++ sl t s e ++ t.drop e := by
  unfold sl
  have h3 : (t.take e).take s = t.take s := by
    rw [List.take_take, Nat.min_eq_left h1]
  calc t = t.take e ++ t.drop e := (List.take_append_drop e t).symm
    _ = ((t.take e).take s ++ (t.take e).drop s) ++ t.drop e := by
        rw [List.take_append_drop s (t.take e)]
    _ = t.take s ++ (t.take e).drop s ++ t.drop e := by rw [h3]

theorem length_take_of_le {t : LC} {s : Nat} (h : s ≤ t.length) :
    (t.take s).length = s := by
  simp [List.length_take, Nat.min_eq_left h]

theorem occursAt_sl {t : LC} {s e : Nat} (h1 : s ≤ e) (h2 : e ≤ t.length) :
    occursAt (sl t s e) t s :=
  ⟨t.take s, t.drop e, take_sl_drop h1 h2,
    length_take_of_le (le_trans h1 h2)⟩

theorem sl_length {t : LC} {s e : Nat} (h1 : s ≤ e) (h2 : e ≤ t.length) :
    (sl t s e).length = e - s := by
  unfold sl
  simp only [List.length_drop, List.length_take]
  omega

theorem sl_right {A B : LC} {s e : Nat} (h : A.length ≤ s)
    (h2 : A.length ≤ e) :
    sl (A ++ B) s e = sl B (s - A.length) (e - A.length) := by
  unfold sl
  rw [List.take_append_eq_append_take, List.take_of_length_le h2,
    List.drop_append_eq_append_drop]
  have hd : A.drop s = [] := List.drop_eq_nil_of_le h
  rw [hd, List.nil_append]

theorem sl_left {A B : LC} {s e : Nat} (h : e ≤ A.length) :
    sl (A ++ B) s e = sl A s e := by
  unfold sl
  rw [List.take_append_eq_append_take]
  have hz : e - A.length = 0 := by omega
  rw [hz, List.take_zero, List.append_nil]

theorem splice_right {A B : LC} {s e : Nat} {r : LC} (h : A.length ≤ s)
    (h2 : A.length ≤ e) :
    splice (A ++ B) s e r = A ++ splice B (s - A.length) (e - A.length) r := by
  unfold splice
  rw [List.take_append_eq_append_take, List.take_of_length_le h,
    List.drop_append_eq_append_drop, List.drop_eq_nil_of_le h2,
    List.nil_append]
  simp [List.append_assoc]

theorem splice_left {A B : LC} {s e : Nat} {r : LC} (h : e ≤ A.length)
    (h1 : s ≤ e) :
    splice (A ++ B) s e r = splice A s e r ++ B := by
  unfold splice
  rw [List.take_append_eq_append_take, List.drop_append_eq_append_drop]
  have hs : s - A.length = 0 := by omega
  have he : e - A.length = 0 := by omega
  rw [hs, he, List.take_zero, List.append_nil, List.drop_zero]
  simp [List.append_assoc]

theorem splice_of_decomp {X S Y : LC} {s e : Nat} {r : LC}
    (hs : X.length = s) (he : s + S.length = e) :
    splice (X ++ S ++ Y) s e r = X ++ r ++ Y := by
  unfold splice
  have hlen : (X ++ S).length = e := by
    simp only [List.length_append, hs]
    omega
  rw [List.drop_left' hlen, List.append_assoc X S Y, List.take_left' hs]

theorem splice_take {t : LC} {s e k : Nat} {r : LC} (h : k ≤ s)
    (hs : s ≤ t.length) :
    (splice t s e r).take k = t.take k := by
  unfold splice
  rw [List.take_append_eq_append_take, List.take_append_eq_append_take]
  have h1 : (t.take s).take k = t.take k := by
    rw [List.take_take, Nat.min_eq_left h]
  have h2 : k - (t.take s).length = 0 := by
    rw [length_take_of_le hs]
    omega
  have h3 : k - (t.take s ++ r).length = 0 := by
    simp only [List.length_append, length_take_of_le hs]
    omega
  rw [h1, h2, h3, List.take_zero, List.take_zero]
  simp

theorem sl_congr_prefix {t t' : LC} {s e : Nat} (h : t.take e = t'.take e) :
    sl t s e = sl t' s e := by
  unfold sl
  rw [h]

theorem length_ge_of_take_eq {t t' : LC} {e : Nat}
    (h : t.take e = t'.take e) (he : e ≤ t'.length) : e ≤ t.length := by
  have hl := congrArg List.length h
  simp only [List.length_take] at hl
  omega

/-! ## Bracket-token lemmas -/

theorem bt_ne_nil {q : LC} (h : BracketTok q) : q ≠ [] := by
  obtain ⟨m, rfl, _, _⟩ := h
  simp

theorem bt_lb_mem {q : LC} (h : BracketTok q) : '[' ∈ q := by
  obtain ⟨m, rfl, _, _⟩ := h
  simp

theorem bt_prefix_lb {q w x : LC} (h : BracketTok q) (he : q = w ++ x)
    (hw : w ≠ []) : '[' ∈ w := by
  obtain ⟨m, hq, _, _⟩ := h
  cases w with
  | nil => exact absurd rfl hw
  | cons c w2 =>
    have h2 : ('[' : Char) :: (m ++ [']']) = c :: (w2 ++ x) := by
      have h0 := hq.symm.trans he
      simpa using h0
    have hc := (List.cons.inj h2).1
    simp [← hc]

theorem bt_suffix_rb {q w x : LC} (h : BracketTok q) (he : q = w ++ x)
    (hx : x ≠ []) : ']' ∈ x := by
  obtain ⟨m, hq, _, _⟩ := h
  rcases List.eq_nil_or_concat x with rfl | ⟨x2, a, hxc⟩
  · exact absurd rfl hx
  · have hxa : x = x2 ++ [a] := by simpa using hxc
    have h1 : q.getLast? = some a := by
      rw [he, hxa, ← List.append_assoc, List.getLast?_concat]
    have h2 : q.getLast? = some ']' := by
      rw [hq, List.getLast?_concat]
    have ha : (']' : Char) = a := Option.some.inj (h2.symm.trans h1)
    rw [hxa, ← ha]
    simp

theorem bt_no_inner_lb {q u y : LC} (hq : BracketTok q) (he : q = u ++ y)
    (hu : u ≠ []) (hy : '[' ∈ y) : False := by
  obtain ⟨mq, hqe, hql, _⟩ := hq
  cases u with
  | nil => exact hu rfl
  | cons c u2 =>
    have h2 : ('[' : Char) :: (mq ++ [']']) = c :: (u2 ++ y) := by
      have h0 := hqe.symm.trans he
      simpa using h0
    have htl := (List.cons.inj h2).2
    have hmem : '[' ∈ mq ++ [']'] := by
      rw [htl]
      simp [hy]
    rcases List.mem_append.mp hmem with h | h
    · exact hql h
    · simp at h

theorem bt_prefix_eq {p q : LC} (hp : BracketTok p) (hq : BracketTok q)
    (h : p <+: q) : p = q := by
  obtain ⟨r, hr⟩ := h
  obtain ⟨mp, hpe, hpl, hpr⟩ := hp
  obtain ⟨mq, hqe, hql, hqr⟩ := hq
  cases r with
  | nil => rw [← hr]; simp
  | cons r0 r2 =>
    exfalso
    have h2 : ('[' : Char) :: (mq ++ [']']) =
        '[' :: (mp ++ (']' :: (r0 :: r2))) := by
      have h0 : q = p ++ (r0 :: r2) := hr.symm
      rw [hpe, hqe] at h0
      simpa using h0
    have h3 := (List.cons.inj h2).2
    rcases List.append_eq_append_iff.mp h3 with ⟨a, hmp2, ha⟩ | ⟨c, hmq2, hc⟩
    · have hlen := congrArg List.length ha
      simp only [List.length_append, List.length_cons, List.length_nil] at hlen
      omega
    · cases c with
      | nil =>
        simp at hc
      | cons c0 c2 =>
        have hc0 := (List.cons.inj hc).1
        have : ']' ∈ mq := by
          rw [hmq2, ← hc0]
          simp
        exact hqr this

end Delilah

namespace Delilah

/-- A bracket-free separator-containing span and a separator-free bracket
token can never overlap in a text. -/
theorem tok_slice_disjoint {q w t : LC} {i j : Nat}
    (hq : BracketTok q) (hqs : ∀ c ∈ q, c ∉ SEP)
    (hw1 : '[' ∉ w) (hw2 : ']' ∉ w) (hw3 : ∃ c ∈ w, c ∈ SEP)
    (hoq : occursAt q t i) (how : occursAt w t j) :
    j + w.length ≤ i ∨ i + q.length ≤ j := by
  obtain ⟨u, v, ht1, hu⟩ := hoq
  obtain ⟨u', v', ht2, hu'⟩ := how
  have heq : u ++ (q ++ v) = u' ++ (w ++ v') := by
    rw [← List.append_assoc, ← List.append_assoc, ← ht1, ← ht2]
  rcases List.append_eq_append_iff.mp heq with ⟨a, hua, hqa⟩ | ⟨c, huc, hwc⟩
  · rcases List.append_eq_append_iff.mp hqa with ⟨b, hab, hvb⟩ | ⟨b, hqb, hwb⟩
    · right
      have hlen : u'.length = u.length + q.length + b.length := by
        rw [hua, hab]
        simp only [List.length_append]
        omega
      omega
    · by_cases hb : b = []
      · right
        subst hb
        have hqa2 : q = a := by simpa using hqb
        have hlen : u'.length = u.length + q.length := by
          rw [hua, hqa2]
          simp
        omega
      · exfalso
        rcases List.append_eq_append_iff.mp hwb with ⟨d, hbd, hvd⟩ | ⟨d, hwd, hvd⟩
        · obtain ⟨cS, hcw, hcS⟩ := hw3
          have : cS ∈ q := by
            rw [hqb, hbd]
            simp [hcw]
          exact hqs cS this hcS
        · have hmem : ']' ∈ b := bt_suffix_rb hq hqb hb
          exact hw2 (by rw [hwd]; simp [hmem])
  · rcases List.append_eq_append_iff.mp hwc with ⟨b, hcb, hvb⟩ | ⟨b, hwb, hqb⟩
    · left
      have hlen : u.length = u'.length + w.length + b.length := by
        rw [huc, hcb]
        simp only [List.length_append]
        omega
      omega
    · by_cases hb : b = []
      · left
        subst hb
        have hwa2 : w = c := by simpa using hwb
        have hlen : u.length = u'.length + w.length := by
          rw [huc, hwa2]
          simp
        omega
      · exfalso
        rcases List.append_eq_append_iff.mp hqb with ⟨d, hbd, hvd⟩ | ⟨d, hqd, hvd⟩
        · have : '[' ∈ w := by
            rw [hwb, hbd]
            simp [bt_lb_mem hq]
          exact hw1 this
        · have hmem : '[' ∈ b := bt_prefix_lb hq hqd hb
          exact hw1 (by rw [hwb]; simp [hmem])

/-- An occurrence of a bracket token in `a ++ (q ++ R)` with `q` a
bracket token lies entirely in `a` or entirely in `q ++ R` — it cannot
straddle the boundary. -/
theorem occursAt_lit_tok {p q R a : LC} {i : Nat}
    (hp : BracketTok p) (hq : BracketTok q)
    (h : occursAt p (a ++ (q ++ R)) i) :
    (i + p.length ≤ a.length ∧ occursAt p a i) ∨
      (a.length ≤ i ∧ occursAt p (q ++ R) (i - a.length)) := by
  obtain ⟨u, v, ht, hu⟩ := h
  have heq : a ++ (q ++ R) = u ++ (p ++ v) := by
    rw [ht]
    simp [List.append_assoc]
  rcases List.append_eq_append_iff.mp heq with ⟨w, huw, hRw⟩ | ⟨w, haw, hpw⟩
  · right
    have hlu : u.length = a.length + w.length := by
      rw [huw]
      simp
    constructor
    · omega
    · refine ⟨w, v, by rw [hRw]; simp [List.append_assoc], by omega⟩
  · by_cases hw : w = []
    · subst hw
      have hau : a = u := by simpa using haw
      have hali : a.length = i := by rw [hau]; exact hu
      right
      constructor
      · omega
      · refine ⟨[], v, ?_, by simp; omega⟩
        have : q ++ R = p ++ v := by simpa using hpw.symm
        simpa using this
    · rcases List.append_eq_append_iff.mp hpw with ⟨b, hwb, hvb⟩ | ⟨b, hpb, hRb⟩
      · left
        have hla : a.length = u.length + p.length + b.length := by
          rw [haw, hwb]
          simp only [List.length_append]
          omega
        constructor
        · omega
        · exact ⟨u, b, by rw [haw, hwb]; simp [List.append_assoc], hu⟩
      · by_cases hb : b = []
        · subst hb
          left
          have hpw2 : p = w := by simpa using hpb
          have hla : a.length = u.length + p.length := by
            rw [haw, hpw2]
            simp
          constructor
          · omega
          · exact ⟨u, [], by rw [haw, hpw2]; simp, hu⟩
        · exfalso
          cases b with
          | nil => exact hb rfl
          | cons c b2 =>
            obtain ⟨mq, hqe, _, _⟩ := hq
            have hc : c = '[' := by
              have h0 : ('[' : Char) :: (mq ++ [']'] ++ R) =
                  c :: (b2 ++ v) := by
                have h1 : q ++ R = (c :: b2) ++ v := hRb
                rw [hqe] at h1
                simpa [List.append_assoc] using h1
              exact ((List.cons.inj h0).1).symm
            exact bt_no_inner_lb hp hpb hw (by simp [hc])

/-- An occurrence of a bracket token in `q ++ R` with `q` a bracket token
is either exactly `q` at position 0, or lies entirely in `R`. -/
theorem occursAt_tok_head {p q R : LC} {i : Nat}
    (hp : BracketTok p) (hq : BracketTok q)
    (h : occursAt p (q ++ R) i) :
    (p = q ∧ i = 0) ∨ (q.length ≤ i ∧ occursAt p R (i - q.length)) := by
  obtain ⟨u, v, ht, hu⟩ := h
  have heq : q ++ R = u ++ (p ++ v) := by
    rw [ht]
    simp [List.append_assoc]
  rcases List.append_eq_append_iff.mp heq with ⟨w, huw, hRw⟩ | ⟨w, hqw, hpw⟩
  · right
    have hlu : u.length = q.length + w.length := by
      rw [huw]
      simp
    constructor
    · omega
    · exact ⟨w, v, by rw [hRw]; simp [List.append_assoc], by omega⟩
  · by_cases hw : w = []
    · subst hw
      have hqu : q = u := by simpa using hqw
      have hqli : q.length = i := by rw [hqu]; exact hu
      right
      constructor
      · omega
      · refine ⟨[], v, ?_, by simp; omega⟩
        have : R = p ++ v := by simpa using hpw.symm
        simpa using this
    · rcases List.append_eq_append_iff.mp hpw with ⟨b, hwb, hvb⟩ | ⟨b, hpb, hRb⟩
      · by_cases hu0 : u = []
        · subst hu0
          left
          have hqpb : q = p ++ b := by
            rw [hqw, hwb]
            simp
          refine ⟨bt_prefix_eq hp hq ⟨b, hqpb.symm⟩, by simpa using hu.symm⟩
        · exfalso
          have hq2 : q = u ++ (p ++ b) := by rw [hqw, hwb]
          exact bt_no_inner_lb hq hq2 hu0 (by simp [bt_lb_mem hp])
      · by_cases hb : b = []
        · subst hb
          have hpw2 : p = w := by simpa using hpb
          by_cases hu0 : u = []
          · subst hu0
            left
            have : q = p := by rw [hqw, hpw2]; simp
            exact ⟨this.symm, by simpa using hu.symm⟩
          · exfalso
            have hq2 : q = u ++ p := by rw [hqw, hpw2]
            exact bt_no_inner_lb hq hq2 hu0 (bt_lb_mem hp)
        · by_cases hu0 : u = []
          · subst hu0
            have hqw2 : q = w := by simpa using hqw
            have hqp : q <+: p := ⟨b, by rw [hqw2]; exact hpb.symm⟩
            have heqp := bt_prefix_eq hq hp hqp
            have hwp : w = p := hqw2.symm.trans heqp
            have hpp : p = p ++ b := hpb.trans (by rw [hwp])
            have hlen := congrArg List.length hpp
            simp only [List.length_append] at hlen
            exact (hb (List.eq_nil_of_length_eq_zero (by omega))).elim
          · have hlb : '[' ∈ w := bt_prefix_lb hp hpb hw
            exact (bt_no_inner_lb hq hqw hu0 hlb).elim

end Delilah

namespace Delilah

/-- No occurrence of a bracket token in a rendered segment text whose
literals avoid it and whose token keys differ from it. -/
theorem render_no_occ :
    ∀ (rest : List ((LC × LC) × LC)) (head : LC) {p : LC},
      BracketTok p →
      (∀ e ∈ rest, BracketTok e.1.1) →
      ¬ p <:+: head →
      (∀ e ∈ rest, ¬ p <:+: e.2) →
      (∀ e ∈ rest, p ≠ e.1.1) →
      ¬ p <:+: (head ++ renderRest rest) := by
  intro rest
  induction rest with
  | nil =>
    intro head p hp _ hh _ _ hinf
    rw [renderRest] at hinf
    rw [List.append_nil] at hinf
    exact hh hinf
  | cons E rest ih =>
    intro head p hp htoks hh hlit hkey hinf
    rw [infix_iff_occursAt] at hinf
    obtain ⟨i, hocc⟩ := hinf
    have hre : head ++ renderRest (E :: rest) =
        head ++ (E.1.1 ++ (E.2 ++ renderRest rest)) := by
      rw [renderRest]
      simp [List.append_assoc]
    rw [hre] at hocc
    rcases occursAt_lit_tok hp (htoks E (by simp)) hocc with ⟨_, hin⟩ | ⟨_, hin⟩
    · exact hh (infix_iff_occursAt.mpr ⟨i, hin⟩)
    · rcases occursAt_tok_head hp (htoks E (by simp)) hin with ⟨heq2, _⟩ | ⟨_, hin2⟩
      · exact hkey E (by simp) heq2
      · exact ih E.2 hp (fun e he => htoks e (by simp [he]))
          (hlit E (by simp)) (fun e he => hlit e (by simp [he]))
          (fun e he => hkey e (by simp [he]))
          (infix_iff_occursAt.mpr ⟨_, hin2⟩)

/-- Two occurrences of the same bracket token in a rendered segment text
with distinct keys and token-free literals coincide. -/
theorem occ_render_eq :
    ∀ (rest : List ((LC × LC) × LC)) (head : LC) {p : LC} {i j : Nat},
      BracketTok p →
      (∀ e ∈ rest, BracketTok e.1.1) →
      ¬ p <:+: head →
      (∀ e ∈ rest, ¬ p <:+: e.2) →
      ((rest.map (fun e => e.1.1)).Nodup) →
      occursAt p (head ++ renderRest rest) i →
      occursAt p (head ++ renderRest rest) j → i = j := by
  intro rest
  induction rest with
  | nil =>
    intro head p i j hp _ hh _ _ hi _
    rw [renderRest, List.append_nil] at hi
    exact absurd (infix_iff_occursAt.mpr ⟨i, hi⟩) hh
  | cons E rest ih =>
    intro head p i j hp htoks hh hlit hnd hi hj
    have hre : head ++ renderRest (E :: rest) =
        head ++ (E.1.1 ++ (E.2 ++ renderRest rest)) := by
      rw [renderRest]
      simp [List.append_assoc]
    rw [hre] at hi hj
    have hbtE : BracketTok E.1.1 := htoks E (by simp)
    have hnd' : (E.1.1 :: rest.map (fun e => e.1.1)).Nodup := by
      have h0 := hnd
      rw [List.map_cons] at h0
      exact h0
    have hndc := List.nodup_cons.mp hnd'
    have hnokey : ∀ e ∈ rest, E.1.1 ≠ e.1.1 := by
      intro e he heq2
      exact hndc.1 (List.mem_map.mpr ⟨e, he, heq2.symm⟩)
    have hcase : ∀ {k : Nat}, occursAt p (head ++ (E.1.1 ++ (E.2 ++ renderRest rest))) k →
        (p = E.1.1 ∧ k = head.length) ∨
          (head.length + E.1.1.length ≤ k ∧
            occursAt p (E.2 ++ renderRest rest) (k - head.length - E.1.1.length)) := by
      intro k hk
      rcases occursAt_lit_tok hp hbtE hk with ⟨_, hin⟩ | ⟨hk1, hin⟩
      · exact absurd (infix_iff_occursAt.mpr ⟨k, hin⟩) hh
      · rcases occursAt_tok_head hp hbtE hin with ⟨heq2, hz⟩ | ⟨hk2, hin2⟩
        · left
          exact ⟨heq2, by omega⟩
        · right
          exact ⟨by omega, hin2⟩
    rcases hcase hi with ⟨hpe, hieq⟩ | ⟨hi1, hi2⟩
    · rcases hcase hj with ⟨_, hjeq⟩ | ⟨hj1, hj2⟩
      · omega
      · exfalso
        refine render_no_occ rest E.2 hp
          (fun e he => htoks e (by simp [he])) (hlit E (by simp))
          (fun e he => hlit e (by simp [he]))
          (fun e he => hpe ▸ hnokey e he) ?_
        exact infix_iff_occursAt.mpr ⟨_, hj2⟩
    · rcases hcase hj with ⟨hpe, hjeq⟩ | ⟨hj1, hj2⟩
      · exfalso
        refine render_no_occ rest E.2 hp
          (fun e he => htoks e (by simp [he])) (hlit E (by simp))
          (fun e he => hlit e (by simp [he]))
          (fun e he => hpe ▸ hnokey e he) ?_
        exact infix_iff_occursAt.mpr ⟨_, hi2⟩
      · have := ih E.2 hp (fun e he => htoks e (by simp [he]))
          (hlit E (by simp)) (fun e he => hlit e (by simp [he]))
          hndc.2 hi2 hj2
        omega

/-- An occurrence wholly inside the left part of an append is an
occurrence in that part. -/
theorem occursAt_within_left {p A B : LC} {i : Nat}
    (h : occursAt p (A ++ B) i) (hle : i + p.length ≤ A.length) :
    occursAt p A i := by
  obtain ⟨u, v, ht, hu⟩ := h
  refine ⟨u, v.take (A.length - u.length - p.length), ?_, hu⟩
  have h1 : A = ((u ++ p) ++ v).take A.length := by
    rw [← ht]
    exact (List.take_left A B).symm
  rw [h1, List.take_append_eq_append_take, List.take_append_eq_append_take]
  have e1 : u.take A.length = u := List.take_of_length_le (by omega)
  have e2 : p.take (A.length - u.length) = p :=
    List.take_of_length_le (by omega)
  have e3 : A.length - (u ++ p).length = A.length - u.length - p.length := by
    simp only [List.length_append]
    omega
  rw [e1, e2, e3]
  simp [List.append_assoc]

/-- An occurrence wholly inside the right part of an append is an
occurrence in that part. -/
theorem occursAt_within_right {p A B : LC} {i : Nat}
    (h : occursAt p (A ++ B) i) (hge : A.length ≤ i) :
    occursAt p B (i - A.length) := by
  obtain ⟨u, v, ht, hu⟩ := h
  have hge2 : A.length ≤ u.length := by omega
  refine ⟨u.drop A.length, v, ?_, by simp only [List.length_drop]; omega⟩
  have h1 : B = ((u ++ p) ++ v).drop A.length := by
    rw [← ht]
    exact (List.drop_left A B).symm
  rw [h1, List.drop_append_eq_append_drop, List.drop_append_eq_append_drop]
  have e2 : p.drop (A.length - u.length) = p := by
    have hz : A.length - u.length = 0 := by omega
    rw [hz, List.drop_zero]
  have e3 : v.drop (A.length - (u ++ p).length) = v := by
    have hz : A.length - (u ++ p).length = 0 := by
      simp only [List.length_append]
      omega
    rw [hz, List.drop_zero]
  rw [e2, e3]

/-- No bracket token survives in the merge of two token-free literals
around a bracket-free separator-containing middle. -/
theorem no_tok_in_merge {q : LC} (hq : BracketTok q)
    (hqs : ∀ c ∈ q, c ∉ SEP) {a o c : LC}
    (ha : ¬ q <:+: a) (hc : ¬ q <:+: c)
    (ho1 : '[' ∉ o) (ho2 : ']' ∉ o) (ho3 : ∃ s ∈ o, s ∈ SEP) :
    ¬ q <:+: (a ++ o ++ c) := by
  intro hinf
  rw [infix_iff_occursAt] at hinf
  obtain ⟨i, hocc⟩ := hinf
  have hocco : occursAt o (a ++ o ++ c) a.length := ⟨a, c, rfl, rfl⟩
  rcases tok_slice_disjoint hq hqs ho1 ho2 ho3 hocc hocco with hd | hd
  · -- wholly beyond `a ++ o`: inside `c`
    apply hc
    rw [infix_iff_occursAt]
    refine ⟨i - (a ++ o).length, occursAt_within_right hocc ?_⟩
    simp only [List.length_append]
    omega
  · -- wholly before `o`: inside `a`
    apply ha
    rw [infix_iff_occursAt]
    have hocc2 : occursAt q (a ++ (o ++ c)) i := by
      rw [← List.append_assoc]
      exact hocc
    exact ⟨i, occursAt_within_left hocc2 (by omega)⟩

end Delilah

namespace Delilah

/-! ## replaceAll lemmas -/

theorem isPrefixOf_iff_exists : ∀ (a b : LC), a.isPrefixOf b = true ↔ ∃ r, a ++ r = b := by
  intro a
  induction a with
  | nil =>
    intro b
    simp [List.isPrefixOf]
  | cons x a ih =>
    intro b
    cases b with
    | nil => simp [List.isPrefixOf]
    | cons y b =>
      simp only [List.isPrefixOf, Bool.and_eq_true, beq_iff_eq]
      constructor
      · rintro ⟨hxy, hab⟩
        obtain ⟨r, hr⟩ := (ih b).mp hab
        exact ⟨r, by simp [hxy, hr]⟩
      · rintro ⟨r, hr⟩
        have h1 := List.cons.inj (by simpa using hr)
        exact ⟨h1.1, (ih b).mpr ⟨r, h1.2⟩⟩

theorem occursAt_cons_shift {p t : LC} {c : Char} {i : Nat}
    (h : occursAt p t i) : occursAt p (c :: t) (i + 1) := by
  obtain ⟨u, v, ht, hu⟩ := h
  exact ⟨c :: u, v, by rw [ht]; simp, by simp [hu]⟩

theorem replaceAll_nil_of_ne {p o : LC} (hp : p ≠ []) :
    replaceAll p o [] = [] := by
  rw [replaceAll]
  rw [if_neg]
  simp [hp]

theorem replaceAll_cons_not_pre {p o : LC} {c : Char} {t : LC} (hp : p ≠ [])
    (hpre : p.isPrefixOf (c :: t) = false) :
    replaceAll p o (c :: t) = c :: replaceAll p o t := by
  rw [replaceAll]
  rw [dif_neg (by simp [hpre])]
  rw [if_neg (by simp [hp])]

theorem replaceAll_fire {p o : LC} (hp : p ≠ []) (v : LC) :
    replaceAll p o (p ++ v) = o ++ replaceAll p o v := by
  cases hpc : p with
  | nil => exact absurd hpc hp
  | cons c pt =>
    have hpre : p.isPrefixOf (p ++ v) = true :=
      (isPrefixOf_iff_exists p (p ++ v)).mpr ⟨v, rfl⟩
    rw [hpc] at hpre
    have hne : (c :: pt : LC) ≠ [] := by simp
    have hcv : (c :: pt) ++ v = c :: (pt ++ v) := by simp
    rw [hcv]
    rw [replaceAll]
    rw [dif_pos ⟨hne, by rw [← hcv]; exact hpre⟩]
    congr 1
    have hd : ((c :: (pt ++ v)).drop (c :: pt).length) = v := by
      rw [← hcv]
      exact List.drop_left (c :: pt) v
    rw [hd]

theorem replaceAll_not_infix {p o : LC} (hp : p ≠ []) :
    ∀ {t : LC}, ¬ p <:+: t → replaceAll p o t = t := by
  intro t
  induction t with
  | nil => intro _; exact replaceAll_nil_of_ne hp
  | cons c t ih =>
    intro hni
    have hpre : p.isPrefixOf (c :: t) = false := by
      cases hb : p.isPrefixOf (c :: t) with
      | false => rfl
      | true =>
        obtain ⟨r, hr⟩ := (isPrefixOf_iff_exists p (c :: t)).mp hb
        exact absurd ⟨[], r, by simp [hr]⟩ hni
    rw [replaceAll_cons_not_pre hp hpre]
    have htail : ¬ p <:+: t := by
      intro hinf
      obtain ⟨u, v, huv⟩ := hinf
      exact hni ⟨c :: u, v, by rw [← huv]; simp⟩
    rw [ih htail]

theorem replaceAll_append_skip {p o : LC} (hp : p ≠ []) :
    ∀ (a b : LC), (∀ i, occursAt p (a ++ b) i → a.length ≤ i) →
      replaceAll p o (a ++ b) = a ++ replaceAll p o b := by
  intro a
  induction a with
  | nil => intro b _; simp
  | cons c a ih =>
    intro b hno
    have hpre : p.isPrefixOf (c :: (a ++ b)) = false := by
      cases hb : p.isPrefixOf (c :: (a ++ b)) with
      | false => rfl
      | true =>
        exfalso
        obtain ⟨r, hr⟩ := (isPrefixOf_iff_exists p (c :: (a ++ b))).mp hb
        have hocc : occursAt p ((c :: a) ++ b) 0 := ⟨[], r, by simp [← hr], rfl⟩
        have := hno 0 hocc
        simp at this
    have hca : (c :: a) ++ b = c :: (a ++ b) := by simp
    have hcond : ∀ i, occursAt p (a ++ b) i → a.length ≤ i := by
      intro i hocc
      have := hno (i + 1) (by rw [hca]; exact occursAt_cons_shift hocc)
      simp at this
      omega
    rw [hca, replaceAll_cons_not_pre hp hpre, ih b hcond]
    simp

end Delilah

namespace Delilah

/-! ## Placeholder-shape lemmas -/

theorem mkPh_eq (ty id : LC) :
    mkPh ty id = ('[' :: (ty ++ '_' :: id)) ++ [']'] := by
  unfold mkPh
  simp

theorem mkPh_bracketTok {ty id : LC} (hty : TyOK ty) (hid : IdOK id) :
    BracketTok (mkPh ty id) := by
  refine ⟨ty ++ '_' :: id, by rw [mkPh_eq], ?_, ?_⟩
  · simp only [List.mem_append, List.mem_cons]
    rintro (h | h | h)
    · exact hty.1 h
    · exact absurd h (by decide)
    · exact hid.1 h
  · simp only [List.mem_append, List.mem_cons]
    rintro (h | h | h)
    · exact hty.2.1 h
    · exact absurd h (by decide)
    · exact hid.2.1 h

theorem mkPh_sep_free {ty id : LC} (hty : TyOK ty) (hid : IdOK id) :
    ∀ c ∈ mkPh ty id, c ∉ SEP := by
  intro c hc
  rw [mkPh_eq] at hc
  simp only [List.mem_append, List.mem_cons, List.mem_singleton,
    List.not_mem_nil, or_false] at hc
  rcases hc with (h | h | h | h) | h
  · subst h; decide
  · exact hty.2.2 c h
  · subst h; decide
  · exact hid.2.2.2 c h
  · subst h; decide

theorem mkPh_tokOK {ty id : LC} (hty : TyOK ty) (hid : IdOK id) :
    TokOK (mkPh ty id) :=
  ⟨mkPh_bracketTok hty hid, mkPh_sep_free hty hid⟩

theorem takeWhile_until_underscore :
    ∀ (x y : LC), (∀ c ∈ x, c ≠ '_') →
      (x ++ '_' :: y).takeWhile (fun c => c != '_') = x := by
  intro x
  induction x with
  | nil =>
    intro y _
    simp [List.takeWhile]
  | cons c x ih =>
    intro y hx
    have hc : (c != '_') = true := by
      simp [hx c (by simp)]
    have hrec := ih y (fun d hd => hx d (by simp [hd]))
    simp [List.takeWhile_cons, hc, hrec]

theorem mkPh_rev (ty id : LC) :
    (mkPh ty id).reverse = (']' :: id.reverse) ++ '_' :: (ty.reverse ++ ['[']) := by
  rw [mkPh_eq]
  simp

theorem mkPh_inj_id {ty ty' id id' : LC} (hid : IdOK id) (hid' : IdOK id')
    (h : mkPh ty id = mkPh ty' id') : id = id' := by
  have hrev := congrArg List.reverse h
  rw [mkPh_rev, mkPh_rev] at hrev
  have key : ∀ (tz idz : LC), IdOK idz →
      (((']' :: idz.reverse) ++ '_' :: (tz.reverse ++ ['['])).takeWhile
        (fun c => c != '_')) = ']' :: idz.reverse := by
    intro tz idz hidz
    apply takeWhile_until_underscore
    intro c hc
    rcases List.mem_cons.mp hc with h1 | h1
    · subst h1; decide
    · intro heq
      subst heq
      exact hidz.2.2.1 (by simpa using h1)
  have h2 : (']' :: id.reverse : LC) = ']' :: id'.reverse := by
    rw [← key ty id hid, ← key ty' id' hid', hrev]
  have h3 : id.reverse = id'.reverse := (List.cons.inj h2).2
  have := congrArg List.reverse h3
  simpa using this

/-- Distinct stream positions yield distinct placeholders, whatever the
categories. -/
theorem mkPh_inj_of_gen {gen : Nat → LC} (hg : GenOK gen)
    {ty ty' : LC} {j k : Nat} (hne : j ≠ k) :
    mkPh ty (gen j) ≠ mkPh ty' (gen k) := by
  intro h
  exact hne (hg.1 j k (mkPh_inj_id (hg.2 j) (hg.2 k) h))

/-! ## Table-insert lemmas -/

theorem lookup_eq_none_of {tbl : List (LC × LC)} {k : LC}
    (h : ∀ kv ∈ tbl, kv.1 ≠ k) : tbl.lookup k = none := by
  induction tbl with
  | nil => rfl
  | cons kv tbl ih =>
    obtain ⟨a, b⟩ := kv
    have ha : a ≠ k := h (a, b) (by simp)
    have hb : (k == a) = false := by
      simp only [beq_eq_false_iff_ne, ne_eq]
      exact fun he => ha he.symm
    simp only [List.lookup, hb]
    exact ih (fun kv hkv => h kv (by simp [hkv]))

theorem tblInsert_fresh {tbl : List (LC × LC)} {k v : LC}
    (h : ∀ kv ∈ tbl, kv.1 ≠ k) : tblInsert tbl k v = tbl ++ [(k, v)] := by
  unfold tblInsert
  rw [if_neg]
  rw [lookup_eq_none_of h]
  simp

end Delilah

namespace Delilah

/-! ## Splicing a match slice into a segmented text -/

theorem renderRest_append :
    ∀ (X Y : List ((LC × LC) × LC)),
      renderRest (X ++ Y) = renderRest X ++ renderRest Y := by
  intro X Y
  induction X with
  | nil => simp [renderRest]
  | cons E X ih =>
    simp only [List.cons_append, renderRest, List.append_eq, ih,
      List.append_assoc]

theorem restoreRest_append :
    ∀ (X Y : List ((LC × LC) × LC)),
      restoreRest (X ++ Y) = restoreRest X ++ restoreRest Y := by
  intro X Y
  induction X with
  | nil => simp [restoreRest]
  | cons E X ih =>
    simp only [List.cons_append, restoreRest, List.append_eq, ih,
      List.append_assoc]

/-- A bracket-free separator-containing slice of a rendered segmented
text lies inside one literal; splicing a placeholder over it yields a
new segmented text with the expected render, restoration, token list
and literal shrinkage. -/
theorem span_in_lit (ph : LC) :
    ∀ (rest : List ((LC × LC) × LC)) (head : LC) (s e : Nat),
      (∀ ee ∈ rest, TokOK ee.1.1) →
      s ≤ e → e ≤ (head ++ renderRest rest).length →
      '[' ∉ sl (head ++ renderRest rest) s e →
      ']' ∉ sl (head ++ renderRest rest) s e →
      (∃ c ∈ sl (head ++ renderRest rest) s e, c ∈ SEP) →
      ∃ (hd : LC) (rs : List ((LC × LC) × LC)),
        hd ++ renderRest rs = splice (head ++ renderRest rest) s e ph ∧
        hd ++ restoreRest rs = head ++ restoreRest rest ∧
        (rs.map Prod.fst).Perm
          ((ph, sl (head ++ renderRest rest) s e) :: rest.map Prod.fst) ∧
        ∀ l ∈ hd :: rs.map Prod.snd,
          ∃ l0 ∈ head :: rest.map Prod.snd, l <:+: l0 := by
  intro rest
  induction rest with
  | nil =>
    intro head s e _ hse hlen hlb hrb hsep
    rw [renderRest, List.append_nil] at hlen hlb hrb hsep ⊢
    refine ⟨head.take s, [((ph, sl head s e), head.drop e)], ?_, ?_, ?_, ?_⟩
    · simp [renderRest, splice, List.append_assoc]
    · simp only [restoreRest, List.append_nil, List.append_assoc]
      rw [← List.append_assoc]
      exact (take_sl_drop hse hlen).symm
    · simp
    · intro l hl
      simp only [List.map_cons, List.map_nil, List.mem_cons,
        List.mem_singleton] at hl
      rcases hl with h | h | h
      · exact ⟨head, by simp, h ▸ (List.take_prefix s head).isInfix⟩
      · exact ⟨head, by simp, h ▸ (List.drop_suffix e head).isInfix⟩
      · exact absurd h (by simp)
  | cons E rest ih =>
    intro head s e htoks hse hlen hlb hrb hsep
    have hqtok : TokOK E.1.1 := htoks E (by simp)
    have hTsh : head ++ renderRest (E :: rest) =
        head ++ (E.1.1 ++ (E.2 ++ renderRest rest)) := by
      rw [renderRest]
      simp [List.append_assoc]
    have hw_occ : occursAt (sl (head ++ renderRest (E :: rest)) s e)
        (head ++ renderRest (E :: rest)) s := occursAt_sl hse hlen
    have hq_occ : occursAt E.1.1 (head ++ renderRest (E :: rest))
        head.length :=
      ⟨head, E.2 ++ renderRest rest, by rw [hTsh]; simp [List.append_assoc],
        rfl⟩
    have hwlen : (sl (head ++ renderRest (E :: rest)) s e).length = e - s :=
      sl_length hse hlen
    rcases tok_slice_disjoint hqtok.1 hqtok.2 hlb hrb hsep hq_occ hw_occ
      with hd1 | hd1
    · -- the slice lies inside `head`
      have hehead : e ≤ head.length := by omega
      have hsl_head : sl (head ++ renderRest (E :: rest)) s e =
          sl head s e := by
        rw [hTsh]
        exact sl_left hehead
      refine ⟨head.take s,
        ((ph, sl (head ++ renderRest (E :: rest)) s e), head.drop e)
          :: E :: rest, ?_, ?_, ?_, ?_⟩
      · rw [hTsh, splice_left hehead hse]
        simp [renderRest, splice, List.append_assoc]
      · simp only [restoreRest, hsl_head, List.append_assoc]
        conv_rhs => rw [take_sl_drop hse hehead]
        simp [List.append_assoc]
      · simp only [List.map_cons]
        exact List.Perm.refl _
      · intro l hl
        simp only [List.map_cons, List.mem_cons] at hl
        rcases hl with h | h | h | h
        · exact ⟨head, by simp, h ▸ (List.take_prefix s head).isInfix⟩
        · exact ⟨head, by simp, h ▸ (List.drop_suffix e head).isInfix⟩
        · exact ⟨E.2, by simp, h ▸ List.infix_refl _⟩
        · exact ⟨l, by simp only [List.map_cons, List.mem_cons]; tauto,
            List.infix_refl _⟩
    · -- the slice lies beyond the token: recurse into `E.2 ++ …`
      have hALs : (head ++ E.1.1).length ≤ s := by
        simp only [List.length_append]
        omega
      have hALe : (head ++ E.1.1).length ≤ e := le_trans hALs hse
      have hTassoc : head ++ renderRest (E :: rest) =
          (head ++ E.1.1) ++ (E.2 ++ renderRest rest) := by
        rw [renderRest]
        simp [List.append_assoc]
      have hsl2 : sl (head ++ renderRest (E :: rest)) s e =
          sl (E.2 ++ renderRest rest) (s - (head ++ E.1.1).length)
            (e - (head ++ E.1.1).length) := by
        rw [hTassoc]
        exact sl_right hALs hALe
      have hlen2 : e - (head ++ E.1.1).length ≤
          (E.2 ++ renderRest rest).length := by
        rw [hTassoc] at hlen
        simp only [List.length_append] at hlen ⊢
        omega
      have hse2 : s - (head ++ E.1.1).length ≤ e - (head ++ E.1.1).length := by
        omega
      rw [hsl2] at hlb hrb hsep
      obtain ⟨hd2, rs2, hr1, hr2, hr3, hr4⟩ :=
        ih E.2 (s - (head ++ E.1.1).length) (e - (head ++ E.1.1).length)
          (fun ee hee => htoks ee (by simp [hee])) hse2 hlen2 hlb hrb hsep
      refine ⟨head, (E.1, hd2) :: rs2, ?_, ?_, ?_, ?_⟩
      · rw [hTassoc, splice_right hALs hALe, ← hr1, renderRest]
        simp [List.append_assoc]
      · simp only [restoreRest, List.append_assoc]
        rw [hr2]
      · simp only [List.map_cons]
        rw [hsl2]
        exact (List.Perm.cons E.1 hr3).trans (List.Perm.swap _ _ _)
      · intro l hl
        simp only [List.map_cons, List.mem_cons] at hl
        rcases hl with h | h
        · exact ⟨head, by simp, h ▸ List.infix_refl _⟩
        · obtain ⟨l0, hl0, hinf⟩ := hr4 l (by simpa using h)
          refine ⟨l0, ?_, hinf⟩
          simp only [List.map_cons, List.mem_cons] at hl0 ⊢
          tauto

end Delilah

namespace Delilah

/-- Under a well-formed registry, every token of a `SegInv` segment text
is a well-formed placeholder. -/
theorem SegInv_tokOK {t0 : LC} {tys : List LC} {gen : Nat → LC}
    {st : DState} {sg : SegText} (hg : GenOK gen)
    (htys : ∀ y ∈ tys, TyOK y) (hinv : SegInv t0 tys gen st sg) :
    ∀ ee ∈ sg.rest, TokOK ee.1.1 := by
  intro ee hee
  obtain ⟨ty', k, hty', _, heq⟩ := hinv.2.2.2.2.1 ee hee
  rw [heq]
  exact mkPh_tokOK (htys ty' hty') (hg.2 k)

/-- The next placeholder to be issued differs from every key already in
the table. -/
theorem SegInv_key_ne {t0 : LC} {tys : List LC} {gen : Nat → LC}
    {st : DState} {sg : SegText} (hg : GenOK gen)
    (hinv : SegInv t0 tys gen st sg) (ty : LC) :
    ∀ kv ∈ st.table, kv.1 ≠ mkPh ty (gen st.ctr) := by
  intro kv hkv
  have hmem : kv ∈ toks sg := (hinv.2.2.1).subset hkv
  obtain ⟨ee, hee, heq⟩ := List.mem_map.mp hmem
  obtain ⟨ty', k, _, hk, hkey⟩ := hinv.2.2.2.2.1 ee hee
  rw [← heq]
  show ee.1.1 ≠ mkPh ty (gen st.ctr)
  rw [hkey]
  exact mkPh_inj_of_gen hg (by omega)

/-- Processing one match preserves the invariant and leaves the text
strictly before the match start untouched. -/
theorem processOne_inv {t0 tp : LC} {tys : List LC} {gen : Nat → LC}
    {ty : LC} (hg : GenOK gen) (htys : ∀ y ∈ tys, TyOK y) (hty : ty ∈ tys)
    {m : PhMatch}
    (hm1 : m.start ≤ m.stop) (hm2 : m.stop ≤ tp.length)
    (hm3 : '[' ∉ sl tp m.start m.stop) (hm4 : ']' ∉ sl tp m.start m.stop)
    (hm5 : ∃ c ∈ sl tp m.start m.stop, c ∈ SEP)
    {st : DState} {sg : SegText}
    (hinv : SegInv t0 tys gen st sg)
    (hagree : st.text.take m.stop = tp.take m.stop) :
    ∃ sg', SegInv t0 tys gen (processOne gen ty tp st m) sg' ∧
      ∀ k, k ≤ m.start →
        (processOne gen ty tp st m).text.take k = st.text.take k := by
  obtain ⟨h1, h2, h3, h4, h5, h6, h7, h8⟩ := hinv
  by_cases hex : isProfessionalTerm (sl tp m.start m.stop)
  · refine ⟨sg, ?_, ?_⟩
    · simpa only [processOne, if_pos hex] using
        (⟨h1, h2, h3, h4, h5, h6, h7, h8⟩ :
          SegInv t0 tys gen st sg)
    · intro k _
      simp only [processOne, if_pos hex]
  · have hinv' : SegInv t0 tys gen st sg := ⟨h1, h2, h3, h4, h5, h6, h7, h8⟩
    have hlen_st : m.stop ≤ st.text.length := length_ge_of_take_eq hagree hm2
    have hsl_eq : sl st.text m.start m.stop = sl tp m.start m.stop :=
      sl_congr_prefix hagree
    have hrend : st.text = sg.head ++ renderRest sg.rest := h1
    have hlenR : m.stop ≤ (sg.head ++ renderRest sg.rest).length := by
      rw [← hrend]
      exact hlen_st
    have hslR : sl (sg.head ++ renderRest sg.rest) m.start m.stop =
        sl tp m.start m.stop := by
      rw [← hrend, hsl_eq]
    have hlbR : '[' ∉ sl (sg.head ++ renderRest sg.rest) m.start m.stop := by
      rw [hslR]
      exact hm3
    have hrbR : ']' ∉ sl (sg.head ++ renderRest sg.rest) m.start m.stop := by
      rw [hslR]
      exact hm4
    have hsepR : ∃ c ∈ sl (sg.head ++ renderRest sg.rest) m.start m.stop,
        c ∈ SEP := by
      rw [hslR]
      exact hm5
    obtain ⟨hd, rs, hr1, hr2, hr3, hr4⟩ :=
      span_in_lit (mkPh ty (gen st.ctr)) sg.rest sg.head m.start m.stop
        (SegInv_tokOK hg htys hinv') hm1 hlenR hlbR hrbR hsepR
    rw [hslR] at hr3
    have hpo : processOne gen ty tp st m =
        { text := splice st.text m.start m.stop (mkPh ty (gen st.ctr)),
          table := tblInsert st.table (mkPh ty (gen st.ctr))
            (sl tp m.start m.stop),
          ctr := st.ctr + 1 } := by
      simp only [processOne, if_neg hex]
    rw [hpo]
    have c1 : splice st.text m.start m.stop (mkPh ty (gen st.ctr)) =
        render ⟨hd, rs⟩ := by
      rw [hrend]
      exact hr1.symm
    have c2 : restore (⟨hd, rs⟩ : SegText) = t0 := by
      rw [← h2]
      show hd ++ restoreRest rs = restore sg
      rw [hr2]
      rfl
    have hfreshk := SegInv_key_ne hg hinv' ty
    have c3 : (tblInsert st.table (mkPh ty (gen st.ctr))
        (sl tp m.start m.stop)).Perm (toks ⟨hd, rs⟩) := by
      rw [tblInsert_fresh hfreshk]
      exact ((List.perm_append_singleton _ _).trans
        (List.Perm.cons _ h3)).trans hr3.symm
    have c4 : (tblInsert st.table (mkPh ty (gen st.ctr))
        (sl tp m.start m.stop)).length = st.ctr + 1 := by
      rw [tblInsert_fresh hfreshk]
      simp [h4]
    have c5 : ∀ ee ∈ rs, ∃ ty' k, ty' ∈ tys ∧ k < st.ctr + 1 ∧
        ee.1.1 = mkPh ty' (gen k) := by
      intro ee hee
      have hmem : ee.1 ∈
          (mkPh ty (gen st.ctr), sl tp m.start m.stop)
            :: sg.rest.map Prod.fst :=
        hr3.subset (List.mem_map_of_mem Prod.fst hee)
      rcases List.mem_cons.mp hmem with hc | hc
      · exact ⟨ty, st.ctr, hty, by omega, by rw [hc]⟩
      · obtain ⟨e0, he0, heq0⟩ := List.mem_map.mp hc
        obtain ⟨ty', k, hty', hk, hkey⟩ := h5 e0 he0
        exact ⟨ty', k, hty', by omega, by rw [← heq0]; exact hkey⟩
    have c6 : ∀ ee ∈ rs, OrigOK ee.1.2 := by
      intro ee hee
      have hmem : ee.1 ∈
          (mkPh ty (gen st.ctr), sl tp m.start m.stop)
            :: sg.rest.map Prod.fst :=
        hr3.subset (List.mem_map_of_mem Prod.fst hee)
      rcases List.mem_cons.mp hmem with hc | hc
      · rw [hc]
        exact ⟨hm3, hm4, hm5⟩
      · obtain ⟨e0, he0, heq0⟩ := List.mem_map.mp hc
        have := h6 e0 he0
        rw [heq0] at this
        exact this
    have c7 : ∀ l ∈ lits ⟨hd, rs⟩, l <:+: t0 := by
      intro l hl
      obtain ⟨l0, hl0, hinf⟩ := hr4 l hl
      exact hinf.trans (h7 l0 hl0)
    have hmap := hr3.map Prod.fst
    rw [List.map_cons] at hmap
    have c8 : ((toks (⟨hd, rs⟩ : SegText)).map Prod.fst).Nodup := by
      refine (hmap.nodup_iff).mpr ?_
      refine List.nodup_cons.mpr ⟨?_, h8⟩
      intro hmem2
      obtain ⟨key, hkey, heqk⟩ := List.mem_map.mp hmem2
      obtain ⟨e0, he0, heq0⟩ := List.mem_map.mp hkey
      obtain ⟨ty', k, _, hk, hkey2⟩ := h5 e0 he0
      have heqph : mkPh ty' (gen k) = mkPh ty (gen st.ctr) := by
        rw [← hkey2, heq0, heqk]
      exact mkPh_inj_of_gen hg (show k ≠ st.ctr by omega) heqph
    refine ⟨⟨hd, rs⟩, ⟨c1, c2, c3, c4, c5, c6, c7, c8⟩, ?_⟩
    intro k hk
    show (splice st.text m.start m.stop (mkPh ty (gen st.ctr))).take k =
      st.text.take k
    exact splice_take hk (le_trans hm1 hlen_st)

end Delilah

namespace Delilah

/-- In an ascending disjoint match list, the head's stop bounds every
later start. -/
theorem chain_stop_le :
    ∀ (ms : List PhMatch) (m : PhMatch),
      (∀ mx ∈ ms, mx.start ≤ mx.stop) →
      List.Chain' (fun a b => a.stop ≤ b.start) (m :: ms) →
      ∀ mx ∈ ms, m.stop ≤ mx.start := by
  intro ms
  induction ms with
  | nil =>
    intro m _ _ mx hmx
    exact absurd hmx (by simp)
  | cons m1 ms ih =>
    intro m hfacts hch mx hmx
    have hcc := List.chain'_cons.mp hch
    rcases List.mem_cons.mp hmx with h | h
    · rw [h]
      exact hcc.1
    · have h2 := ih m1 (fun x hx => hfacts x (by simp [hx])) hcc.2 mx h
      have hb : m1.start ≤ m1.stop := hfacts m1 (by simp)
      have ha := hcc.1
      omega

/-- The reversed match loop (a right fold) preserves the invariant and
leaves the text before the first match untouched. -/
theorem matchFold_inv {t0 tp : LC} {tys : List LC} {gen : Nat → LC}
    {ty : LC} (hg : GenOK gen) (htys : ∀ y ∈ tys, TyOK y) (hty : ty ∈ tys) :
    ∀ (ms : List PhMatch),
      List.Chain' (fun a b => a.stop ≤ b.start) ms →
      (∀ m ∈ ms, m.start ≤ m.stop ∧ m.stop ≤ tp.length ∧
        '[' ∉ sl tp m.start m.stop ∧ ']' ∉ sl tp m.start m.stop ∧
        ∃ c ∈ sl tp m.start m.stop, c ∈ SEP) →
      ∀ (st : DState) (sg : SegText),
        SegInv t0 tys gen st sg →
        (∀ m ∈ ms, st.text.take m.stop = tp.take m.stop) →
        ∃ sg', SegInv t0 tys gen
            (ms.foldr (fun m s => processOne gen ty tp s m) st) sg' ∧
          ∀ k, (∀ m ∈ ms, k ≤ m.start) →
            (ms.foldr (fun m s => processOne gen ty tp s m) st).text.take k =
              st.text.take k := by
  intro ms
  induction ms with
  | nil =>
    intro _ _ st sg hinv _
    exact ⟨sg, hinv, fun k _ => rfl⟩
  | cons m ms ih =>
    intro hch hfacts st sg hinv hagree
    have hch2 : List.Chain' (fun a b => a.stop ≤ b.start) ms := hch.tail
    have hfacts2 : ∀ mx ∈ ms, mx.start ≤ mx.stop ∧ mx.stop ≤ tp.length ∧
        '[' ∉ sl tp mx.start mx.stop ∧ ']' ∉ sl tp mx.start mx.stop ∧
        ∃ c ∈ sl tp mx.start mx.stop, c ∈ SEP :=
      fun mx hmx => hfacts mx (by simp [hmx])
    obtain ⟨sgm, hinvm, htakem⟩ := ih hch2 hfacts2 st sg hinv
      (fun mx hmx => hagree mx (by simp [hmx]))
    have hstople : ∀ mx ∈ ms, m.stop ≤ mx.start :=
      chain_stop_le ms m (fun mx hmx => (hfacts2 mx hmx).1) hch
    have hagm : (ms.foldr (fun m s => processOne gen ty tp s m) st).text.take
        m.stop = tp.take m.stop := by
      rw [htakem m.stop hstople]
      exact hagree m (by simp)
    obtain ⟨hm1, hm2, hm3, hm4, hm5⟩ := hfacts m (by simp)
    obtain ⟨sg', hinv', htake'⟩ :=
      processOne_inv hg htys hty hm1 hm2 hm3 hm4 hm5 hinvm hagm
    refine ⟨sg', ?_, ?_⟩
    · simpa only [List.foldr_cons] using hinv'
    · intro k hk
      rw [List.foldr_cons]
      rw [htake' k (hk m (by simp))]
      exact htakem k (fun mx hmx => hk mx (by simp [hmx]))

/-- Applying one well-behaved pattern preserves the invariant. -/
theorem applyPattern_inv {t0 : LC} {tys : List LC} {gen : Nat → LC}
    {ty : LC} {mt : Matcher} (hg : GenOK gen) (htys : ∀ y ∈ tys, TyOK y)
    (hty : ty ∈ tys) (hmt : MatcherOK mt)
    {st : DState} {sg : SegText} (hinv : SegInv t0 tys gen st sg) :
    ∃ sg', SegInv t0 tys gen (applyPattern gen ty mt st) sg' := by
  obtain ⟨hch, hfacts⟩ := hmt st.text
  have heq : applyPattern gen ty mt st =
      (mt st.text).foldr (fun m s => processOne gen ty st.text s m) st := by
    unfold applyPattern
    rw [List.foldl_reverse]
  rw [heq]
  obtain ⟨sg', hinv', _⟩ :=
    matchFold_inv hg htys hty (mt st.text) hch hfacts st sg hinv
      (fun m _ => rfl)
  exact ⟨sg', hinv'⟩

/-- Applying a list of well-behaved patterns preserves the invariant. -/
theorem matcherFold_inv {t0 : LC} {tys : List LC} {gen : Nat → LC}
    {ty : LC} (hg : GenOK gen) (htys : ∀ y ∈ tys, TyOK y) (hty : ty ∈ tys) :
    ∀ (mts : List Matcher), (∀ mt ∈ mts, MatcherOK mt) →
      ∀ (st : DState) (sg : SegText), SegInv t0 tys gen st sg →
      ∃ sg', SegInv t0 tys gen
        (mts.foldl (fun s mt => applyPattern gen ty mt s) st) sg' := by
  intro mts
  induction mts with
  | nil =>
    intro _ st sg hinv
    exact ⟨sg, hinv⟩
  | cons mt mts ih =>
    intro hok st sg hinv
    obtain ⟨sg1, hinv1⟩ := applyPattern_inv hg htys hty (hok mt (by simp)) hinv
    rw [List.foldl_cons]
    exact ih (fun x hx => hok x (by simp [hx])) _ sg1 hinv1

/-- Applying the whole registry, category by category, preserves the
invariant. -/
theorem catFold_inv {t0 : LC} {tys : List LC} {gen : Nat → LC}
    (hg : GenOK gen) (htys : ∀ y ∈ tys, TyOK y) :
    ∀ (cs : List (LC × List Matcher)),
      (∀ cat ∈ cs, cat.1 ∈ tys ∧ ∀ mt ∈ cat.2, MatcherOK mt) →
      ∀ (st : DState) (sg : SegText), SegInv t0 tys gen st sg →
      ∃ sg', SegInv t0 tys gen (cs.foldl (applyCategory gen) st) sg' := by
  intro cs
  induction cs with
  | nil =>
    intro _ st sg hinv
    exact ⟨sg, hinv⟩
  | cons c cs ih =>
    intro hok st sg hinv
    rw [List.foldl_cons]
    have hc1 := hok c (by simp)
    have happ : ∃ sg1, SegInv t0 tys gen (applyCategory gen st c) sg1 := by
      unfold applyCategory
      exact matcherFold_inv hg htys hc1.1 c.2 hc1.2 st sg hinv
    obtain ⟨sg1, hinv1⟩ := happ
    exact ih (fun x hx => hok x (by simp [hx])) _ sg1 hinv1

/-- A full `deidentify_text` run renders a segmented text satisfying the
session invariant. -/
theorem deidentify_inv (cats : List (LC × List Matcher)) (gen : Nat → LC)
    (t0 : LC) (hc : CatsOK cats) (hg : GenOK gen) :
    ∃ sg, SegInv t0 (cats.map Prod.fst) gen (deidentifyText cats gen t0)
      sg := by
  have htys : ∀ y ∈ cats.map Prod.fst, TyOK y := by
    intro y hy
    obtain ⟨cat, hcat, heq⟩ := List.mem_map.mp hy
    rw [← heq]
    exact (hc cat hcat).1
  have hinit : SegInv t0 (cats.map Prod.fst) gen
      { text := t0, table := [], ctr := 0 } ⟨t0, []⟩ := by
    refine ⟨?_, ?_, ?_, ?_, ?_, ?_, ?_, ?_⟩
    · simp [render, renderRest]
    · simp [restore, restoreRest]
    · simp [toks]
    · rfl
    · intro e he
      exact absurd he (by simp)
    · intro e he
      exact absurd he (by simp)
    · intro l hl
      have hl0 : l = t0 := by simpa [lits] using hl
      exact hl0 ▸ List.infix_refl t0
    · simp [toks]
  unfold deidentifyText
  exact catFold_inv hg htys cats
    (fun cat hcat => ⟨List.mem_map_of_mem Prod.fst hcat, (hc cat hcat).2⟩)
    _ _ hinit

end Delilah

namespace Delilah

theorem head_mem_lits (sg : SegText) : sg.head ∈ lits sg := by
  unfold lits
  exact List.mem_cons_self _ _

theorem mem_lits_of_mem {sg : SegText} {ee : (LC × LC) × LC}
    (h : ee ∈ sg.rest) : ee.2 ∈ lits sg := by
  unfold lits
  exact List.mem_cons_of_mem _ (List.mem_map_of_mem Prod.snd h)

/-- Replacing one placeholder by its original collapses that segment of
the rendered text, leaving everything else untouched. -/
theorem reid_collapse {q o : LC} (hq : BracketTok q) :
    ∀ (A : List ((LC × LC) × LC)) (head litE : LC)
      (B : List ((LC × LC) × LC)),
      ¬ q <:+: head →
      ¬ q <:+: litE →
      (∀ e ∈ A, BracketTok e.1.1) → (∀ e ∈ B, BracketTok e.1.1) →
      (∀ e ∈ A, ¬ q <:+: e.2) → (∀ e ∈ B, ¬ q <:+: e.2) →
      (∀ e ∈ A, q ≠ e.1.1) → (∀ e ∈ B, q ≠ e.1.1) →
      replaceAll q o (head ++ renderRest (A ++ ((q, o), litE) :: B)) =
        head ++ renderRest A ++ o ++ litE ++ renderRest B := by
  have hqne : q ≠ [] := bt_ne_nil hq
  intro A
  induction A with
  | nil =>
    intro head litE B hh hlit _ hBb _ hB2 _ hB3
    have hskip : ∀ i,
        occursAt q (head ++ (q ++ (litE ++ renderRest B))) i →
          head.length ≤ i := by
      intro i hocc
      rcases occursAt_lit_tok hq hq hocc with ⟨_, hin⟩ | ⟨hge, _⟩
      · exact absurd (infix_iff_occursAt.mpr ⟨i, hin⟩) hh
      · exact hge
    have hni : ¬ q <:+: (litE ++ renderRest B) :=
      render_no_occ B litE hq hBb hlit hB2 hB3
    calc replaceAll q o (head ++ renderRest ([] ++ ((q, o), litE) :: B))
        = replaceAll q o (head ++ (q ++ (litE ++ renderRest B))) := by
          simp only [List.nil_append, renderRest, List.append_assoc]
      _ = head ++ replaceAll q o (q ++ (litE ++ renderRest B)) :=
          replaceAll_append_skip hqne head _ hskip
      _ = head ++ (o ++ replaceAll q o (litE ++ renderRest B)) := by
          rw [replaceAll_fire hqne]
      _ = head ++ (o ++ (litE ++ renderRest B)) := by
          rw [ replaceAll_not_infix hqne hni]
      _ = head ++ renderRest [] ++ o ++ litE ++ renderRest B := by
          simp [renderRest, List.append_assoc]
  | cons F A ih =>
    intro head litE B hh hlit hAb hBb hA2 hB2 hA3 hB3
    have hFb : BracketTok F.1.1 := hAb F (by simp)
    have hih := ih F.2 litE B (hA2 F (by simp)) hlit
      (fun e he => hAb e (by simp [he])) hBb
      (fun e he => hA2 e (by simp [he])) hB2
      (fun e he => hA3 e (by simp [he])) hB3
    have hskip1 : ∀ i,
        occursAt q (head ++ (F.1.1 ++
          (F.2 ++ renderRest (A ++ ((q, o), litE) :: B)))) i →
          head.length ≤ i := by
      intro i hocc
      rcases occursAt_lit_tok hq hFb hocc with ⟨_, hin⟩ | ⟨hge, _⟩
      · exact absurd (infix_iff_occursAt.mpr ⟨i, hin⟩) hh
      · exact hge
    have hskip2 : ∀ i,
        occursAt q (F.1.1 ++
          (F.2 ++ renderRest (A ++ ((q, o), litE) :: B))) i →
          F.1.1.length ≤ i := by
      intro i hocc
      rcases occursAt_tok_head hq hFb hocc with ⟨heq2, _⟩ | ⟨hge, _⟩
      · exact absurd heq2 (hA3 F (by simp))
      · exact hge
    calc replaceAll q o (head ++ renderRest ((F :: A) ++ ((q, o), litE) :: B))
        = replaceAll q o (head ++ (F.1.1 ++
            (F.2 ++ renderRest (A ++ ((q, o), litE) :: B)))) := by
          simp only [List.cons_append, renderRest, List.append_eq,
            List.append_assoc]
      _ = head ++ replaceAll q o (F.1.1 ++
            (F.2 ++ renderRest (A ++ ((q, o), litE) :: B))) :=
          replaceAll_append_skip hqne head _ hskip1
      _ = head ++ (F.1.1 ++ replaceAll q o
            (F.2 ++ renderRest (A ++ ((q, o), litE) :: B))) := by
          rw [replaceAll_append_skip hqne F.1.1 _ hskip2]
      _ = head ++ (F.1.1 ++
            (F.2 ++ renderRest A ++ o ++ litE ++ renderRest B)) := by
          rw [hih]
      _ = head ++ renderRest (F :: A) ++ o ++ litE ++ renderRest B := by
          simp only [renderRest, List.append_assoc]

end Delilah

namespace Delilah

/-- Replaying any permutation of a safe segmented text's tokens through
`str.replace` restores the original text. -/
theorem reid_fold :
    ∀ (L : List (LC × LC)) (sg : SegText),
      RSegOK sg → L.Perm (toks sg) →
      L.foldl (fun acc kv => replaceAll kv.1 kv.2 acc) (render sg) =
        restore sg := by
  intro L
  induction L with
  | nil =>
    intro sg hok hperm
    have htoks : toks sg = [] := hperm.symm.eq_nil
    have hrest : sg.rest = [] := by
      unfold toks at htoks
      exact List.map_eq_nil_iff.mp htoks
    simp [render, restore, hrest, renderRest, restoreRest]
  | cons kv L ih =>
    intro sg hok hperm
    have hkv : kv ∈ toks sg := hperm.subset (by simp)
    obtain ⟨E, hE, hEeq⟩ := List.mem_map.mp hkv
    obtain ⟨⟨q, o⟩, litE⟩ := E
    have hkv2 : (q, o) = kv := hEeq
    subst hkv2
    obtain ⟨A, B, hAB⟩ := List.append_of_mem hE
    have hq : BracketTok q := (hok.1 _ hE).1
    have hh : ¬ q <:+: sg.head := hok.2.2.2 _ hE sg.head (head_mem_lits sg)
    have hlit : ¬ q <:+: litE := hok.2.2.2 _ hE litE (mem_lits_of_mem hE)
    have horig : OrigOK o := hok.2.1 _ hE
    have hAb : ∀ e ∈ A, BracketTok e.1.1 := by
      intro e he
      exact (hok.1 e (by rw [hAB]; simp [he])).1
    have hBb : ∀ e ∈ B, BracketTok e.1.1 := by
      intro e he
      exact (hok.1 e (by rw [hAB]; simp [he])).1
    have hA2 : ∀ e ∈ A, ¬ q <:+: e.2 := by
      intro e he
      exact hok.2.2.2 _ hE e.2
        (mem_lits_of_mem (show e ∈ sg.rest by rw [hAB]; simp [he]))
    have hB2 : ∀ e ∈ B, ¬ q <:+: e.2 := by
      intro e he
      exact hok.2.2.2 _ hE e.2
        (mem_lits_of_mem (show e ∈ sg.rest by rw [hAB]; simp [he]))
    have h0 : (((A ++ ((q, o), litE) :: B).map Prod.fst).map
        Prod.fst).Nodup := by
      have h1 := hok.2.2.1
      unfold toks at h1
      rw [hAB] at h1
      exact h1
    have h0s : ((A.map Prod.fst).map Prod.fst ++
        q :: (B.map Prod.fst).map Prod.fst).Nodup := by
      have h1 := h0
      simp only [List.map_append, List.map_cons] at h1
      exact h1
    have h0app := List.nodup_append.mp h0s
    have hqA : ∀ e ∈ A, q ≠ e.1.1 := by
      intro e he heq
      have hmem : q ∈ (A.map Prod.fst).map Prod.fst := by
        rw [heq]
        exact List.mem_map_of_mem _ (List.mem_map_of_mem _ he)
      exact h0app.2.2 hmem (by simp)
    have hqB : ∀ e ∈ B, q ≠ e.1.1 := by
      intro e he heq
      have h1 := List.nodup_cons.mp h0app.2.1
      apply h1.1
      rw [heq]
      exact List.mem_map_of_mem _ (List.mem_map_of_mem _ he)
    have hrender : render sg = sg.head ++ renderRest sg.rest := rfl
    rw [hAB] at hrender
    have hrestore : restore sg = sg.head ++ restoreRest sg.rest := rfl
    rw [hAB] at hrestore
    have hcoll : replaceAll q o (render sg) =
        sg.head ++ renderRest A ++ o ++ litE ++ renderRest B := by
      rw [hrender]
      exact reid_collapse hq A sg.head litE B hh hlit hAb hBb hA2 hB2 hqA hqB
    have hstep : (((q, o) :: L).foldl
          (fun acc kv => replaceAll kv.1 kv.2 acc) (render sg)) =
        L.foldl (fun acc kv => replaceAll kv.1 kv.2 acc)
          (replaceAll q o (render sg)) := rfl
    rw [hstep, hcoll]
    rcases List.eq_nil_or_concat A with hAnil | ⟨A', F, hAcc⟩
    · subst hAnil
      simp only [List.nil_append] at hrestore
      have hok2 : RSegOK ⟨sg.head ++ o ++ litE, B⟩ := by
        refine ⟨?_, ?_, ?_, ?_⟩
        · intro e he
          exact hok.1 e (by rw [hAB]; simp [he])
        · intro e he
          exact hok.2.1 e (by rw [hAB]; simp [he])
        · show (((B.map Prod.fst).map Prod.fst)).Nodup
          have h1 := h0s
          simp only [List.map_nil, List.nil_append] at h1
          exact (List.nodup_cons.mp h1).2
        · intro e he l hl
          have heB : e ∈ sg.rest := by rw [hAB]; simp [he]
          have hsafe := hok.2.2.2 e heB
          have htok := hok.1 e heB
          rcases List.mem_cons.mp hl with h | h
          · subst h
            exact no_tok_in_merge htok.1 htok.2
              (hsafe sg.head (head_mem_lits sg)) (hsafe litE (mem_lits_of_mem hE))
              horig.1 horig.2.1 horig.2.2
          · obtain ⟨ee, hee, heqee⟩ := List.mem_map.mp h
            subst heqee
            exact hsafe ee.2
              (mem_lits_of_mem (show ee ∈ sg.rest by rw [hAB]; simp [hee]))
      have hts : toks sg = (q, o) :: B.map Prod.fst := by
        unfold toks
        rw [hAB]
        simp
      have hpermL : L.Perm (toks ⟨sg.head ++ o ++ litE, B⟩) := by
        have h1 := hperm
        rw [hts] at h1
        exact h1.cons_inv
      have hren2 : sg.head ++ renderRest [] ++ o ++ litE ++ renderRest B =
          render ⟨sg.head ++ o ++ litE, B⟩ := by
        simp [render, renderRest, List.append_assoc]
      rw [hren2, ih _ hok2 hpermL, hrestore]
      show (sg.head ++ o ++ litE) ++ restoreRest B =
        sg.head ++ restoreRest (((q, o), litE) :: B)
      simp [restoreRest, List.append_assoc]
    · rw [List.concat_eq_append] at hAcc
      subst hAcc
      simp only [List.map_append, List.map_cons, List.map_nil] at h0
      have hok2 : RSegOK ⟨sg.head, A' ++ (F.1, F.2 ++ o ++ litE) :: B⟩ := by
        have hFmem : F ∈ sg.rest := by rw [hAB]; simp
        refine ⟨?_, ?_, ?_, ?_⟩
        · intro e he
          rcases List.mem_append.mp he with h | h
          · exact hok.1 e (by rw [hAB]; simp [h])
          · rcases List.mem_cons.mp h with h2 | h2
            · rw [h2]
              exact hok.1 F hFmem
            · exact hok.1 e (by rw [hAB]; simp [h2])
        · intro e he
          rcases List.mem_append.mp he with h | h
          · exact hok.2.1 e (by rw [hAB]; simp [h])
          · rcases List.mem_cons.mp h with h2 | h2
            · rw [h2]
              exact hok.2.1 F hFmem
            · exact hok.2.1 e (by rw [hAB]; simp [h2])
        · show (((A' ++ (F.1, F.2 ++ o ++ litE) :: B).map Prod.fst).map
            Prod.fst).Nodup
          have heq2 : ((A' ++ (F.1, F.2 ++ o ++ litE) :: B).map
              Prod.fst).map Prod.fst =
              (A'.map Prod.fst).map Prod.fst ++
                F.1.1 :: (B.map Prod.fst).map Prod.fst := by
            simp
          rw [heq2]
          have hsub : List.Sublist
              ((A'.map Prod.fst).map Prod.fst ++
                F.1.1 :: (B.map Prod.fst).map Prod.fst)
              (((A'.map Prod.fst).map Prod.fst ++ [F.1.1]) ++
                q :: (B.map Prod.fst).map Prod.fst) := by
            rw [List.append_assoc]
            refine List.Sublist.append_left ?_ _
            exact List.Sublist.cons₂ _ (List.sublist_cons_self _ _)
          have h0s2 : (((A'.map Prod.fst).map Prod.fst ++ [F.1.1]) ++
              q :: (B.map Prod.fst).map Prod.fst).Nodup := by
            have h1 := h0
            simp only [List.map_append, List.map_cons, List.map_nil] at h1
            simpa using h1
          exact List.Nodup.sublist hsub h0s2
        · intro e he l hl
          have hsrc : ∃ e0 ∈ sg.rest, e0.1 = e.1 := by
            rcases List.mem_append.mp he with h | h
            · exact ⟨e, by rw [hAB]; simp [h], rfl⟩
            · rcases List.mem_cons.mp h with h2 | h2
              · exact ⟨F, hFmem, by rw [h2]⟩
              · exact ⟨e, by rw [hAB]; simp [h2], rfl⟩
          obtain ⟨e0, he0, heq0⟩ := hsrc
          have hsafe := hok.2.2.2 e0 he0
          have htok := hok.1 e0 he0
          have hkey : e.1.1 = e0.1.1 := by rw [← heq0]
          rw [hkey]
          rcases List.mem_cons.mp hl with h | h
          · subst h
            exact hsafe sg.head (head_mem_lits sg)
          · obtain ⟨ee, hee, heqee⟩ := List.mem_map.mp h
            rcases List.mem_append.mp hee with h3 | h3
            · subst heqee
              exact hsafe ee.2 (mem_lits_of_mem
                (show ee ∈ sg.rest by rw [hAB]; simp [h3]))
            · rcases List.mem_cons.mp h3 with h4 | h4
              · subst heqee
                rw [h4]
                exact no_tok_in_merge htok.1 htok.2
                  (hsafe F.2 (mem_lits_of_mem hFmem))
                  (hsafe litE (mem_lits_of_mem hE))
                  horig.1 horig.2.1 horig.2.2
              · subst heqee
                exact hsafe ee.2 (mem_lits_of_mem
                  (show ee ∈ sg.rest by rw [hAB]; simp [h4]))
      have hts : toks sg = ((A' ++ [F]).map Prod.fst) ++
          (q, o) :: B.map Prod.fst := by
        unfold toks
        rw [hAB]
        simp
      have hp1 : ((q, o) :: L).Perm
          ((q, o) :: (((A' ++ [F]).map Prod.fst) ++ B.map Prod.fst)) := by
        have h1 := hperm
        rw [hts] at h1
        exact h1.trans List.perm_middle
      have hts2 : toks ⟨sg.head, A' ++ (F.1, F.2 ++ o ++ litE) :: B⟩ =
          ((A' ++ [F]).map Prod.fst) ++ B.map Prod.fst := by
        unfold toks
        simp
      have hpermL : L.Perm
          (toks ⟨sg.head, A' ++ (F.1, F.2 ++ o ++ litE) :: B⟩) := by
        rw [hts2]
        exact hp1.cons_inv
      have hren2 : sg.head ++ renderRest (A' ++ [F]) ++ o ++ litE ++
          renderRest B =
          render ⟨sg.head, A' ++ (F.1, F.2 ++ o ++ litE) :: B⟩ := by
        simp [render, renderRest_append, renderRest, List.append_assoc]
      rw [hren2, ih _ hok2 hpermL, hrestore]
      show sg.head ++ restoreRest (A' ++ (F.1, F.2 ++ o ++ litE) :: B) =
        sg.head ++ restoreRest ((A' ++ [F]) ++ ((q, o), litE) :: B)
      simp [restoreRest_append, restoreRest, List.append_assoc]

end Delilah

namespace Delilah

/-- Under freshness of the id stream for the input, the session
invariant yields the re-identification invariant. -/
theorem SegInv_RSegOK {t0 : LC} {tys : List LC} {gen : Nat → LC}
    {st : DState} {sg : SegText} (hg : GenOK gen)
    (htys : ∀ y ∈ tys, TyOK y)
    (hfresh : ∀ e ∈ sg.rest, ¬ e.1.1 <:+: t0)
    (hinv : SegInv t0 tys gen st sg) : RSegOK sg := by
  refine ⟨SegInv_tokOK hg htys hinv, hinv.2.2.2.2.2.1,
    hinv.2.2.2.2.2.2.2, ?_⟩
  intro e he l hl hinf
  exact hfresh e he (hinf.trans (hinv.2.2.2.2.2.2.1 l hl))

theorem tys_ok_of_catsOK {cats : List (LC × List Matcher)}
    (hc : CatsOK cats) : ∀ y ∈ cats.map Prod.fst, TyOK y := by
  intro y hy
  obtain ⟨cat, hcat, heq⟩ := List.mem_map.mp hy
  rw [← heq]
  exact (hc cat hcat).1

theorem fresh_of_freshFor {cats : List (LC × List Matcher)}
    {gen : Nat → LC} {t0 : LC} (hf : FreshFor cats gen t0)
    {st : DState} {sg : SegText}
    (hinv : SegInv t0 (cats.map Prod.fst) gen st sg) :
    ∀ e ∈ sg.rest, ¬ e.1.1 <:+: t0 := by
  intro e he
  obtain ⟨ty, k, hty, _, hkey⟩ := hinv.2.2.2.2.1 e he
  obtain ⟨cat, hcat, hceq⟩ := List.mem_map.mp hty
  rw [hkey, ← hceq]
  exact hf cat hcat k

/-- C1: a text de-identified by one session is restored exactly by
`reidentify_text` with the table produced by that `deidentify_text`
call, provided the random ids never collide (`GenOK`), the registry's
patterns behave as inspected (`CatsOK`), and no placeholder the session
could issue already occurs in the input (`FreshFor`, the claim's "no
external modification of placeholder tokens"). -/
theorem C1_round_trip (cats : List (LC × List Matcher)) (gen : Nat → LC)
    (t0 : LC) (hc : CatsOK cats) (hg : GenOK gen)
    (hf : FreshFor cats gen t0) :
    reidentifyText (deidentifyText cats gen t0) = t0 := by
  obtain ⟨sg, hinv⟩ := deidentify_inv cats gen t0 hc hg
  have hok := SegInv_RSegOK hg (tys_ok_of_catsOK hc)
    (fresh_of_freshFor hf hinv) hinv
  show (deidentifyText cats gen t0).table.foldl
      (fun acc kv => replaceAll kv.1 kv.2 acc)
      (deidentifyText cats gen t0).text = t0
  rw [hinv.1]
  rw [reid_fold _ sg hok hinv.2.2.1]
  exact hinv.2.1

/-- C2: under the same hypotheses, every placeholder recorded in the
reference table occurs exactly once in the de-identified output text:
later pattern applications never match inside, re-scan or alter an
issued placeholder. -/
theorem C2_placeholder_intact (cats : List (LC × List Matcher))
    (gen : Nat → LC) (t0 : LC) (hc : CatsOK cats) (hg : GenOK gen)
    (hf : FreshFor cats gen t0) :
    ∀ kv ∈ (deidentifyText cats gen t0).table,
      ∃ i, occursAt kv.1 (deidentifyText cats gen t0).text i ∧
        ∀ j, occursAt kv.1 (deidentifyText cats gen t0).text j → j = i := by
  obtain ⟨sg, hinv⟩ := deidentify_inv cats gen t0 hc hg
  have hok := SegInv_RSegOK hg (tys_ok_of_catsOK hc)
    (fresh_of_freshFor hf hinv) hinv
  have hnd : (sg.rest.map (fun e => e.1.1)).Nodup := by
    have h8 := hinv.2.2.2.2.2.2.2
    unfold toks at h8
    rw [List.map_map] at h8
    exact h8
  intro kv hkv
  have hkv2 : kv ∈ toks sg := hinv.2.2.1.subset hkv
  obtain ⟨E, hE, hEeq⟩ := List.mem_map.mp hkv2
  obtain ⟨A, B, hAB⟩ := List.append_of_mem hE
  have hbt : BracketTok kv.1 := by
    rw [← hEeq]
    exact (hok.1 E hE).1
  have hnh : ¬ kv.1 <:+: sg.head := by
    rw [← hEeq]
    exact hok.2.2.2 E hE sg.head (head_mem_lits sg)
  have hnl : ∀ e ∈ sg.rest, ¬ kv.1 <:+: e.2 := by
    intro e he
    rw [← hEeq]
    exact hok.2.2.2 E hE e.2 (mem_lits_of_mem he)
  have htext : (deidentifyText cats gen t0).text =
      sg.head ++ renderRest sg.rest := hinv.1
  have hi0 : occursAt kv.1 (sg.head ++ renderRest sg.rest)
      ((sg.head ++ renderRest A).length) := by
    rw [← hEeq]
    refine ⟨sg.head ++ renderRest A, E.2 ++ renderRest B, ?_, rfl⟩
    rw [hAB, renderRest_append]
    simp [renderRest, List.append_assoc]
  refine ⟨(sg.head ++ renderRest A).length, ?_, ?_⟩
  · rw [htext]
    exact hi0
  · intro j hj
    rw [htext] at hj
    exact occ_render_eq sg.rest sg.head hbt (fun e he => (hok.1 e he).1)
      hnh hnl hnd hj hi0

/-- C4 (amended): provided the random ids never repeat within the
session (`GenOK`), every accepted substitution appends a fresh entry:
the reference-table keys are pairwise distinct and the table has exactly
one entry per issued placeholder. -/
theorem C4_no_collision_amended (cats : List (LC × List Matcher))
    (gen : Nat → LC) (t0 : LC) (hc : CatsOK cats) (hg : GenOK gen) :
    (((deidentifyText cats gen t0).table.map Prod.fst).Nodup) ∧
      (deidentifyText cats gen t0).table.length =
        (deidentifyText cats gen t0).ctr := by
  obtain ⟨sg, hinv⟩ := deidentify_inv cats gen t0 hc hg
  constructor
  · exact (hinv.2.2.1.map Prod.fst).nodup_iff.mpr hinv.2.2.2.2.2.2.2
  · exact hinv.2.2.2.1

/-! ## Discharging the hypotheses on the concrete witness registry -/

theorem catsW_ok : CatsOK catsW := by
  intro cat hcat
  simp only [catsW, List.mem_singleton] at hcat
  subst hcat
  refine ⟨⟨by decide, by decide, by decide⟩, ?_⟩
  intro mt hmt
  simp only [List.mem_singleton] at hmt
  subst hmt
  intro t
  unfold matcherW
  by_cases h : t = "Name: Bob was here".toList
  · rw [if_pos h]
    subst h
    refine ⟨by simp, ?_⟩
    intro m hm
    simp only [List.mem_singleton] at hm
    subst hm
    exact ⟨by decide, by decide, by decide, by decide, by decide⟩
  · rw [if_neg h]
    exact ⟨by simp, by simp⟩

theorem idGenW_ok : GenOK idGenW := by
  constructor
  · intro j k h
    have h2 := congrArg List.length h
    simp only [idGenW, List.length_replicate] at h2
    omega
  · intro k
    refine ⟨?_, ?_, ?_, ?_⟩
    · intro h
      rw [idGenW, List.mem_replicate] at h
      exact absurd h.2 (by decide)
    · intro h
      rw [idGenW, List.mem_replicate] at h
      exact absurd h.2 (by decide)
    · intro h
      rw [idGenW, List.mem_replicate] at h
      exact absurd h.2 (by decide)
    · intro c hc
      rw [idGenW, List.mem_replicate] at hc
      rw [hc.2]
      decide

theorem freshW : FreshFor catsW idGenW "Name: Bob was here".toList := by
  intro cat hcat k hinf
  have hlb : '[' ∈ mkPh cat.1 (idGenW k) := by
    rw [mkPh_eq]
    simp
  have hmem := hinf.sublist.subset hlb
  exact absurd hmem (by decide)

/-- Witness for C1 on a concrete registry, id stream and input. -/
theorem C1_round_trip_witness :
    reidentifyText (deidentifyText catsW idGenW
      "Name: Bob was here".toList) = "Name: Bob was here".toList :=
  C1_round_trip catsW idGenW "Name: Bob was here".toList
    catsW_ok idGenW_ok freshW

/-- Witness for C2 at the concrete table entry the session produces. -/
theorem C2_placeholder_intact_witness :
    ∃ i, occursAt "[NAME_a]".toList
        (deidentifyText catsW idGenW "Name: Bob was here".toList).text i ∧
      ∀ j, occursAt "[NAME_a]".toList
          (deidentifyText catsW idGenW "Name: Bob was here".toList).text j →
        j = i := by
  have h := C2_placeholder_intact catsW idGenW "Name: Bob was here".toList
    catsW_ok idGenW_ok freshW
    ("[NAME_a]".toList, "Name: Bob".toList) (by decide)
  exact h

/-- Witness for the amended C4 on the concrete registry. -/
theorem C4_no_collision_amended_witness :
    (((deidentifyText catsW idGenW
        "Name: Bob was here".toList).table.map Prod.fst).Nodup) ∧
      (deidentifyText catsW idGenW
          "Name: Bob was here".toList).table.length =
        (deidentifyText catsW idGenW "Name: Bob was here".toList).ctr :=
  C4_no_collision_amended catsW idGenW "Name: Bob was here".toList
    catsW_ok idGenW_ok

end Delilah
